import Mathlib

/-!
# Verrazzano pushgateway stream filters

A shallow embedding of `filter.go` (the scanner that rewrites `# TYPE ` comments)
and `definer.go` (the decorator that serves the `TypeDefinitions` header first).

Conventions of the embedding:
* a Go `byte` is a `Nat`, a Go `int` is an `Int`, a `[]byte` is a `List Nat`;
* a Go function that can stop with a run-time index error returns `Res`;
* the `for` loops recurse on a fuel argument, which the callers set to the
  number of iterations that the loop bounds allow.
-/

namespace Verrazzano

/-! ## Results of Go code -/

/-- Outcome of a piece of Go code: a value, a run-time index error, or a loop
model that ran out of fuel. -/
inductive Res (α : Type) where
  | ok (a : α)
  | indexOutOfRange
  | outOfFuel
  deriving DecidableEq, Repr

/-- Go `p[i]` as a read: defined for `0 <= i < len(p)`. -/
def index (p : List Nat) (i : Int) : Option Nat :=
  if i < 0 then none else p[i.toNat]?

/-- Go `p[i] = v`: defined for `0 <= i < len(p)`. -/
def assign (p : List Nat) (i : Int) (v : Nat) : Option (List Nat) :=
  if i < 0 then none
  else if i.toNat < p.length then some (p.set i.toNat v) else none

/-! ## filter.go -/

/-- Go `type ScanState int`. -/
abbrev ScanState := Int

def byteHash : Nat := 35
def byteT : Nat := 84
def byteY : Nat := 89
def byteP : Nat := 80
def byteE : Nat := 69
def byteX : Nat := 88
def byteSpace : Nat := 32
def byteTab : Nat := 9

/-- The constant `stateStart ScanState = iota + 1` stands on the ninth line of its
`const` block, where `iota` is 8. -/
def stateStart : ScanState := 8 + 1
def stateComment : ScanState := 9 + 1
def stateWhitespace : ScanState := 10 + 1
def stateTSeen : ScanState := 11 + 1
def stateYSeen : ScanState := 12 + 1
def statePSeen : ScanState := 13 + 1
def stateESeen : ScanState := 14 + 1

def isAsciiSpaceOrTab (b : Nat) : Bool :=
  b == byteSpace || b == byteTab

/-- The `for i := offset; i < n; i += 1` loop of `indexByteWithOffset`. -/
def indexByteLoop (p : List Nat) (n : Int) (b : Nat) : Nat → Int → Res Int
  | 0, i => if i < n then .outOfFuel else .ok (-1)
  | fuel + 1, i =>
    if i < n then
      match index p i with
      | none => .indexOutOfRange
      | some c => if c = b then .ok i else indexByteLoop p n b fuel (i + 1)
    else .ok (-1)

def indexByteWithOffset (p : List Nat) (offset : Int) (n : Int) (b : Nat) : Res Int :=
  if offset < 0 ∨ n > p.length then .ok (-1)
  else indexByteLoop p n b (n - offset).toNat offset

/-- What one pass through the `switch` of `filter` leaves behind: either the
function returns, or the loop goes on with the buffer, the index and the state. -/
inductive Pass where
  | ret (p : List Nat) (state : ScanState)
  | next (p : List Nat) (i : Int) (state : ScanState)
  deriving DecidableEq, Repr

/-- The `switch tf.state` statement of `filter`, entered with index `i`. -/
def filterSwitch (p : List Nat) (n : Int) (i : Int) (state : ScanState) : Res Pass :=
  if state = stateStart then
    match indexByteWithOffset p i n byteHash with
    | .ok hash => if hash = -1 then .ok (.ret p state) else .ok (.next p hash stateComment)
    | .indexOutOfRange => .indexOutOfRange
    | .outOfFuel => .outOfFuel
  else if state = stateComment then
    match index p i with
    | none => .indexOutOfRange
    | some c =>
      if isAsciiSpaceOrTab c then .ok (.next p i stateWhitespace)
      else .ok (.next p i stateStart)
  else if state = stateWhitespace then
    match index p i with
    | none => .indexOutOfRange
    | some c =>
      if isAsciiSpaceOrTab c then .ok (.next p i stateWhitespace)
      else if c = byteT then .ok (.next p i stateTSeen)
      else .ok (.next p i stateStart)
  else if state = stateTSeen then
    match index p i with
    | none => .indexOutOfRange
    | some c =>
      if c = byteY then .ok (.next p i stateYSeen) else .ok (.next p i stateStart)
  else if state = stateYSeen then
    match index p i with
    | none => .indexOutOfRange
    | some c =>
      if c = byteP then .ok (.next p i statePSeen) else .ok (.next p i stateStart)
  else if state = statePSeen then
    match index p i with
    | none => .indexOutOfRange
    | some c =>
      if c = byteE then .ok (.next p i stateESeen) else .ok (.next p i stateStart)
  else if state = stateESeen then
    match index p i with
    | none => .indexOutOfRange
    | some c =>
      if isAsciiSpaceOrTab c then
        match assign p i byteX with
        | none => .indexOutOfRange
        | some q => .ok (.next q i stateStart)
      else .ok (.next p i stateStart)
  else .ok (.next p i stateStart)

/-- The `for i := 0; i < n; i += 1` loop of `filter`, from index `i` on. -/
def filterLoop (n : Int) : Nat → List Nat → Int → ScanState → Res (List Nat × ScanState)
  | 0, p, i, state => if i < n then .outOfFuel else .ok (p, state)
  | fuel + 1, p, i, state =>
    if i < n then
      match filterSwitch p n i state with
      | .ok (.ret q s) => .ok (q, s)
      | .ok (.next q j s) => filterLoop n fuel q (j + 1) s
      | .indexOutOfRange => .indexOutOfRange
      | .outOfFuel => .outOfFuel
    else .ok (p, state)

/-- Go `filter(p, n, tf)`: the buffer and `tf.state` after the call. The loop runs
at most `n` times, as every pass moves `i` forward. -/
def filter (p : List Nat) (n : Int) (state : ScanState) : Res (List Nat × ScanState) :=
  filterLoop n n.toNat p 0 state

/-- Bytes of a string literal of the Go source (all of them ASCII here). -/
def bytes (s : String) : List Nat := s.toList.map Char.toNat

/-! ## The automaton, one byte at a time

The description of the scanner as a byte-by-byte state machine. The loop of
`filter` is compared with it below, and the properties of `filter` are derived
from that comparison. -/

/-- One transition of the state machine as the specification words it, for one input
byte: the byte written back and the next state. A state that is none of the seven goes
to `stateStart`, as in the `default` case. -/
def stepByte (state : ScanState) (b : Nat) : Nat × ScanState :=
  if state = stateStart then (b, if b = byteHash then stateComment else stateStart)
  else if state = stateComment then
    (b, if isAsciiSpaceOrTab b then stateWhitespace else stateStart)
  else if state = stateWhitespace then
    (b, if isAsciiSpaceOrTab b then stateWhitespace
        else if b = byteT then stateTSeen else stateStart)
  else if state = stateTSeen then (b, if b = byteY then stateYSeen else stateStart)
  else if state = stateYSeen then (b, if b = byteP then statePSeen else stateStart)
  else if state = statePSeen then (b, if b = byteE then stateESeen else stateStart)
  else if state = stateESeen then (if isAsciiSpaceOrTab b then byteX else b, stateStart)
  else (b, stateStart)

/-- The state machine folded over a byte string: the bytes written and the last state. -/
def runBytes : ScanState → List Nat → List Nat × ScanState
  | state, [] => ([], state)
  | state, b :: bs =>
    ((stepByte state b).1 :: (runBytes (stepByte state b).2 bs).1,
      (runBytes (stepByte state b).2 bs).2)

/-! ## Streams of chunks and the pattern -/

/-- Successive calls of `filter`, one per chunk, on a buffer that holds the chunk,
with `n` the length of the chunk and `tf.state` carried from call to call. The
result is the concatenation of the first `n` bytes of every buffer (as the loop
at the end of `doFragmentsTest` collects them) and the last state. -/
def filterChunks : ScanState → List (List Nat) → Res (List Nat × ScanState)
  | state, [] => .ok ([], state)
  | state, c :: cs =>
    match filter c c.length state with
    | .ok (out, s) =>
      match filterChunks s cs with
      | .ok (rest, final) => .ok (out.take c.length ++ rest, final)
      | .indexOutOfRange => .indexOutOfRange
      | .outOfFuel => .outOfFuel
    | .indexOutOfRange => .indexOutOfRange
    | .outOfFuel => .outOfFuel

/-- The bytes `TYPE` (`typeToken` in `filter_test.go`). -/
def typeToken : List Nat := [byteT, byteY, byteP, byteE]

def byteNewline : Nat := 10

/-- A non-empty run of space and tab bytes. -/
def Blanks (w : List Nat) : Prop :=
  w ≠ [] ∧ ∀ x ∈ w, isAsciiSpaceOrTab x = true

/-- The byte string `s` is `u`, then `#`, then the blanks `w`, then `TYPE`, then the
space or tab `b`, then `t`: an occurrence of `#[ \t]+TYPE[ \t]` after `u`. -/
def OccursAt (s u w : List Nat) (b : Nat) (t : List Nat) : Prop :=
  s = u ++ byteHash :: (w ++ typeToken ++ b :: t) ∧ Blanks w ∧ isAsciiSpaceOrTab b = true

/-- The byte string `u` is empty or ends with a newline: what follows starts a line. -/
def LineStart (u : List Nat) : Prop :=
  u = [] ∨ u.getLast? = some byteNewline

/-- The letters of `TYPE` that a state past the blanks has read. -/
def Letters (state : ScanState) (k : List Nat) : Prop :=
  (state = stateWhitespace ∧ k = []) ∨ (state = stateTSeen ∧ k = [byteT]) ∨
  (state = stateYSeen ∧ k = [byteT, byteY]) ∨
  (state = statePSeen ∧ k = [byteT, byteY, byteP]) ∨
  (state = stateESeen ∧ k = typeToken)

/-- What a state tells about the bytes `hist` read so far, for a scan that began in
`stateStart`: past `stateStart`, the bytes end with the part of the pattern that the
state stands for. -/
def History (hist : List Nat) (state : ScanState) : Prop :=
  state = stateStart ∨ (state = stateComment ∧ ∃ u, hist = u ++ [byteHash]) ∨
  ∃ u w k, hist = u ++ byteHash :: (w ++ k) ∧ Blanks w ∧ Letters state k

/-! ## io.ReadCloser -/

/-- A Go `error` that is not `nil`: `io.EOF` or another error. -/
inductive Err where
  | EOF
  | other (msg : String)
  deriving DecidableEq, Repr

/-- What a call `Read(p)` leaves: the caller's buffer after the call and the
returned `n` and `err` (`none` is `nil`). -/
structure ReadResult where
  p : List Nat
  n : Int
  err : Option Err
  deriving DecidableEq, Repr

/-- An implementation of `io.ReadCloser` whose receiver has the state `σ`. -/
structure ReadCloser (σ : Type) where
  Read : σ → List Nat → Res (ReadResult × σ)
  Close : σ → Option Err × σ

/-- Go builtin `copy(dst, src)`: the buffer `dst` afterwards. -/
def copy (dst src : List Nat) : List Nat :=
  src.take dst.length ++ dst.drop src.length

/-! ### filter.go: the reader -/

structure typeFilteringReadCloser (σ : Type) where
  wrapped : σ
  state : ScanState

def NewTypeFilteringReadCloser {σ : Type} (rc : σ) : typeFilteringReadCloser σ :=
  ⟨rc, stateStart⟩

/-- Method `(tf *typeFilteringReadCloser) Read(p)`, over the wrapped reader `W`. -/
def typeFilteringReadCloser.Read {σ : Type} (W : ReadCloser σ)
    (tf : typeFilteringReadCloser σ) (p : List Nat) :
    Res (ReadResult × typeFilteringReadCloser σ) :=
  match W.Read tf.wrapped p with
  | .ok (r, w) =>
    match filter r.p r.n tf.state with
    | .ok (q, s) => .ok (⟨q, r.n, r.err⟩, ⟨w, s⟩)
    | .indexOutOfRange => .indexOutOfRange
    | .outOfFuel => .outOfFuel
  | .indexOutOfRange => .indexOutOfRange
  | .outOfFuel => .outOfFuel

/-- Method `(tn *typeFilteringReadCloser) Close()`. -/
def typeFilteringReadCloser.Close {σ : Type} (W : ReadCloser σ)
    (tn : typeFilteringReadCloser σ) : Option Err × typeFilteringReadCloser σ :=
  ((W.Close tn.wrapped).1, ⟨(W.Close tn.wrapped).2, tn.state⟩)

/-- The filter as an `io.ReadCloser`. -/
def filteringReadCloser {σ : Type} (W : ReadCloser σ) :
    ReadCloser (typeFilteringReadCloser σ) :=
  ⟨typeFilteringReadCloser.Read W, typeFilteringReadCloser.Close W⟩

/-! ## definer.go -/

/-- The constant `TypeDefinitions`, line by line; each line ends with a newline. -/
def TypeDefinitions : String :=
  "# TYPE go_gc_duration_seconds summary\n" ++
  "# TYPE go_goroutines gauge\n" ++
  "# TYPE go_info gauge\n" ++
  "# TYPE go_memstats_alloc_bytes gauge\n" ++
  "# TYPE go_memstats_alloc_bytes_total counter\n" ++
  "# TYPE go_memstats_buck_hash_sys_bytes gauge\n" ++
  "# TYPE go_memstats_frees_total counter\n" ++
  "# TYPE go_memstats_gc_cpu_fraction gauge\n" ++
  "# TYPE go_memstats_gc_sys_bytes gauge\n" ++
  "# TYPE go_memstats_heap_alloc_bytes gauge\n" ++
  "# TYPE go_memstats_heap_idle_bytes gauge\n" ++
  "# TYPE go_memstats_heap_inuse_bytes gauge\n" ++
  "# TYPE go_memstats_heap_objects gauge\n" ++
  "# TYPE go_memstats_heap_released_bytes gauge\n" ++
  "# TYPE go_memstats_heap_sys_bytes gauge\n" ++
  "# TYPE go_memstats_last_gc_time_seconds gauge\n" ++
  "# TYPE go_memstats_lookups_total counter\n" ++
  "# TYPE go_memstats_mallocs_total counter\n" ++
  "# TYPE go_memstats_mcache_inuse_bytes gauge\n" ++
  "# TYPE go_memstats_mcache_sys_bytes gauge\n" ++
  "# TYPE go_memstats_mspan_inuse_bytes gauge\n" ++
  "# TYPE go_memstats_mspan_sys_bytes gauge\n" ++
  "# TYPE go_memstats_next_gc_bytes gauge\n" ++
  "# TYPE go_memstats_other_sys_bytes gauge\n" ++
  "# TYPE go_memstats_stack_inuse_bytes gauge\n" ++
  "# TYPE go_memstats_stack_sys_bytes gauge\n" ++
  "# TYPE go_memstats_sys_bytes gauge\n" ++
  "# TYPE go_threads gauge\n" ++
  "# TYPE process_cpu_seconds_total counter\n" ++
  "# TYPE process_max_fds gauge\n" ++
  "# TYPE process_open_fds gauge\n" ++
  "# TYPE process_resident_memory_bytes gauge\n" ++
  "# TYPE process_start_time_seconds gauge\n" ++
  "# TYPE process_virtual_memory_bytes gauge\n" ++
  "# TYPE process_virtual_memory_max_bytes gauge\n" ++
  "# TYPE pushgateway_build_info gauge\n" ++
  "# TYPE pushgateway_http_requests_total counter\n"

/-- Go's `bytes.Reader` over the byte string `s`, read up to index `i`. -/
structure BytesReader where
  s : List Nat
  i : Nat
  deriving DecidableEq, Repr

/-- `bytes.NewReader`. -/
def BytesReader.NewReader (b : List Nat) : BytesReader := ⟨b, 0⟩

/-- `(*bytes.Reader).Len`: the number of bytes of the unread portion. -/
def BytesReader.Len (r : BytesReader) : Int :=
  if r.i ≥ r.s.length then 0 else (r.s.length : Int) - r.i

/-- `(*bytes.Reader).ReadByte`: the byte and error returned, and the reader afterwards. -/
def BytesReader.ReadByte (r : BytesReader) : (Nat × Option Err) × BytesReader :=
  match r.s[r.i]? with
  | none => ((0, some Err.EOF), r)
  | some b => ((b, none), ⟨r.s, r.i + 1⟩)

structure typeDefiningReadCloser (σ : Type) where
  wrapped : σ
  header : BytesReader

def NewTypeDefiningReadCloser {σ : Type} (rc : σ) : typeDefiningReadCloser σ :=
  ⟨rc, BytesReader.NewReader (bytes TypeDefinitions)⟩

/-- The loop `for ; td.header.Len() > 0 && n < len(p); n += 1` of
`typeDefiningReadCloser.Read`: the header reader, the buffer and `n` after it. -/
def headerLoop : Nat → BytesReader → List Nat → Int → Res (BytesReader × List Nat × Int)
  | 0, h, p, n => if h.Len > 0 ∧ n < p.length then .outOfFuel else .ok (h, p, n)
  | fuel + 1, h, p, n =>
    if h.Len > 0 ∧ n < p.length then
      match assign p n h.ReadByte.1.1 with
      | none => .indexOutOfRange
      | some q => headerLoop fuel h.ReadByte.2 q (n + 1)
    else .ok (h, p, n)

/-- Method `(td *typeDefiningReadCloser) Read(p)`, over the wrapped reader `W`. The
loop runs at most `len(p)` times. -/
def typeDefiningReadCloser.Read {σ : Type} (W : ReadCloser σ)
    (td : typeDefiningReadCloser σ) (p : List Nat) :
    Res (ReadResult × typeDefiningReadCloser σ) :=
  match headerLoop p.length td.header p 0 with
  | .ok (h, q, n) =>
    if n ≠ 0 then .ok (⟨q, n, none⟩, ⟨td.wrapped, h⟩)
    else
      match W.Read td.wrapped q with
      | .ok (r, w) => .ok (r, ⟨w, h⟩)
      | .indexOutOfRange => .indexOutOfRange
      | .outOfFuel => .outOfFuel
  | .indexOutOfRange => .indexOutOfRange
  | .outOfFuel => .outOfFuel

/-- Method `(tn *typeDefiningReadCloser) Close()`. -/
def typeDefiningReadCloser.Close {σ : Type} (W : ReadCloser σ)
    (tn : typeDefiningReadCloser σ) : Option Err × typeDefiningReadCloser σ :=
  ((W.Close tn.wrapped).1, ⟨(W.Close tn.wrapped).2, tn.header⟩)

/-- The definer as an `io.ReadCloser`. -/
def definingReadCloser {σ : Type} (W : ReadCloser σ) :
    ReadCloser (typeDefiningReadCloser σ) :=
  ⟨typeDefiningReadCloser.Read W, typeDefiningReadCloser.Close W⟩

/-! ## filter_test.go: the source that returns its chunks one per call -/

structure fragmentingReadCloser where
  chunks : List (List Nat)
  count : Nat
  eof : Bool
  deriving DecidableEq, Repr

def newFragmentingReadCloser (c : List (List Nat)) : fragmentingReadCloser :=
  ⟨c, 0, false⟩

/-- Method `(f *fragmentingReadCloser) Read(p)`. -/
def fragmentingReadCloser.Read (f : fragmentingReadCloser) (p : List Nat) :
    Res (ReadResult × fragmentingReadCloser) :=
  if f.eof then .ok (⟨p, 0, some Err.EOF⟩, f)
  else if f.count < f.chunks.length then
    match f.chunks[f.count + 1 - 1]? with
    | none => .indexOutOfRange
    | some chunk =>
      if f.count + 1 = f.chunks.length then
        .ok (⟨copy p chunk, chunk.length, some Err.EOF⟩, ⟨f.chunks, f.count + 1, true⟩)
      else .ok (⟨copy p chunk, chunk.length, none⟩, ⟨f.chunks, f.count + 1, f.eof⟩)
  else if f.count = f.chunks.length then
    .ok (⟨p, 0, some Err.EOF⟩, ⟨f.chunks, f.count, true⟩)
  else .ok (⟨p, 0, some Err.EOF⟩, f)

/-- Method `(f *fragmentingReadCloser) Close()`. -/
def fragmentingReadCloser.Close (f : fragmentingReadCloser) :
    Option Err × fragmentingReadCloser :=
  (none, f)

def fragmentingSource : ReadCloser fragmentingReadCloser :=
  ⟨fragmentingReadCloser.Read, fragmentingReadCloser.Close⟩

/-- A caller that reads to the end, as `ioutil.ReadAll` does in the tests: successive
`Read` calls, the `k`-th of them with the buffer `bufs k`, until a call returns an
error. Collects the first `n` bytes of the buffer of every call; the error that ended
the reading comes with them. -/
def readAll {σ : Type} (R : ReadCloser σ) (bufs : Nat → List Nat) :
    Nat → Nat → σ → Res (List Nat × Err)
  | 0, _, _ => .outOfFuel
  | fuel + 1, k, s =>
    match R.Read s (bufs k) with
    | .ok (r, s1) =>
      match r.err with
      | some e => .ok (r.p.take r.n.toNat, e)
      | none =>
        match readAll R bufs fuel (k + 1) s1 with
        | .ok (rest, e) => .ok (r.p.take r.n.toNat ++ rest, e)
        | .indexOutOfRange => .indexOutOfRange
        | .outOfFuel => .outOfFuel
    | .indexOutOfRange => .indexOutOfRange
    | .outOfFuel => .outOfFuel

/-! ## Observing the calls of `Close` and the passes of the loop -/

/-- The reader `W` with a counter of the calls of its `Close` next to its state. -/
def countingCloses {σ : Type} (W : ReadCloser σ) : ReadCloser (σ × Nat) :=
  ⟨fun s p =>
      match W.Read s.1 p with
      | .ok (r, w) => .ok (r, (w, s.2))
      | .indexOutOfRange => .indexOutOfRange
      | .outOfFuel => .outOfFuel,
    fun s => ((W.Close s.1).1, ((W.Close s.1).2, s.2 + 1))⟩

/-- The passes of the loop of `filter`, in order: for every pass through the `switch`,
the index `i` and `tf.state` on entry, and the index `i` at the end of the pass,
before `i += 1`. -/
def filterPasses (n : Int) : Nat → List Nat → Int → ScanState → List (Int × ScanState × Int)
  | 0, _, _, _ => []
  | fuel + 1, p, i, state =>
    if i < n then
      match filterSwitch p n i state with
      | .ok (.ret _ _) => [(i, state, i)]
      | .ok (.next q j s) => (i, state, j) :: filterPasses n fuel q (j + 1) s
      | .indexOutOfRange => [(i, state, i)]
      | .outOfFuel => [(i, state, i)]
    else []

/-- The passes enter the `switch` at `start` and then always right after the index
the pass before ended at, and every pass ends at an index below `n`. -/
def FreshFrom (n : Int) : Int → List (Int × ScanState × Int) → Prop
  | _, [] => True
  | start, e :: rest => e.1 = start ∧ e.1 ≤ e.2.2 ∧ e.2.2 < n ∧ FreshFrom n (e.2.2 + 1) rest

/-- One of the seven named scan states. -/
def ValidState (state : ScanState) : Prop :=
  state ∈ [stateStart, stateComment, stateWhitespace, stateTSeen, stateYSeen, statePSeen,
    stateESeen]

instance (state : ScanState) : Decidable (ValidState state) :=
  inferInstanceAs (Decidable (state ∈ [stateStart, stateComment, stateWhitespace, stateTSeen,
    stateYSeen, statePSeen, stateESeen]))

/-- Successive calls `filter(p, n, tf)` on the same `tf`, one per pair `(p, n)`: the
state of `tf` after the last of them. -/
def filterCalls : ScanState → List (List Nat × Int) → Res ScanState
  | state, [] => .ok state
  | state, c :: rest =>
    match filter c.1 c.2 state with
    | .ok (_, s) => filterCalls s rest
    | .indexOutOfRange => .indexOutOfRange
    | .outOfFuel => .outOfFuel

/-! ## The lines of `TypeDefinitions` -/

/-- The newline-terminated lines of a byte string, without their newline; bytes after
the last newline belong to no such line. -/
def splitLines : List Nat → List (List Nat)
  | [] => []
  | b :: rest =>
    if b = byteNewline then [] :: splitLines rest
    else
      match splitLines rest with
      | [] => []
      | l :: ls => (b :: l) :: ls

/-- ASCII white space: tab, newline, vertical tab, form feed, carriage return, space. -/
def isSpaceByte (b : Nat) : Bool :=
  b == 9 || b == 10 || b == 11 || b == 12 || b == 13 || b == 32

/-- The type words met in `TypeDefinitions`. -/
def typeWords : List (List Nat) := [bytes "counter", bytes "gauge", bytes "summary"]

/-- A line of the form `# TYPE <name> <type>`: a non-empty name without white space,
one space, and one of the type words. -/
def TypeLine (line : List Nat) : Prop :=
  ∃ name ty, line = bytes "# TYPE " ++ name ++ byteSpace :: ty ∧ name ≠ [] ∧
    (∀ b ∈ name, isSpaceByte b = false) ∧ ty ∈ typeWords

/-- A check for `TypeLine`: the name is what stands between `# TYPE ` and the next
space. -/
def isTypeLine (line : List Nat) : Bool :=
  line.take 7 == bytes "# TYPE " &&
  !((line.drop 7).takeWhile (fun b => b != byteSpace)).isEmpty &&
  ((line.drop 7).takeWhile (fun b => b != byteSpace)).all (fun b => !isSpaceByte b) &&
  match (line.drop 7).dropWhile (fun b => b != byteSpace) with
  | [] => false
  | _ :: ty => typeWords.contains ty

/-- The metric name of a line `# TYPE <name> <type>`: the bytes between `# TYPE ` and
the next space. -/
def metricName (line : List Nat) : List Nat :=
  (line.drop 7).takeWhile (fun b => b != byteSpace)

/-! ## Lemmas on buffers -/

theorem index_at_length (a : List Nat) (x : Nat) (r : List Nat) :
    index (a ++ x :: r) (a.length : Int) = some x := by
  have h : (a ++ x :: r)[a.length]? = some x := by
    rw [List.getElem?_append_right (le_refl _)]; simp
  simpa [index] using h

theorem assign_at_length (a : List Nat) (x v : Nat) (r : List Nat) :
    assign (a ++ x :: r) (a.length : Int) v = some (a ++ v :: r) := by
  simp [assign]

/-! ## The byte scan of `indexByteWithOffset` -/

theorem indexByteLoop_absent (b : Nat) (c : List Nat) :
    ∀ (a z : List Nat) (fuel : Nat), b ∉ c → c.length ≤ fuel →
      indexByteLoop (a ++ (c ++ z)) ((a.length : Int) + c.length) b fuel a.length = .ok (-1) := by
  induction c with
  | nil =>
    intro a z fuel _ _
    cases fuel <;> simp [indexByteLoop]
  | cons x c ih =>
    intro a z fuel hb hf
    cases fuel with
    | zero => simp at hf
    | succ fuel =>
      have hx : x ≠ b := fun h => hb (by simp [h])
      have hc : b ∉ c := fun h => hb (by simp [h])
      have hlt : (a.length : Int) < (a.length : Int) + ((x :: c).length : Int) := by
        simp only [List.length_cons]; push_cast; omega
      have key := ih (a ++ [x]) z fuel hc (by simpa using hf)
      simp only [List.length_append, List.length_singleton, List.append_assoc,
        List.singleton_append, Nat.cast_add, Nat.cast_one] at key
      rw [indexByteLoop, if_pos hlt, List.cons_append, index_at_length]
      simp only [hx, if_false]
      have e : (a.length : Int) + ((x :: c).length : Int) = (a.length : Int) + 1 + c.length := by
        simp only [List.length_cons]; push_cast; omega
      rw [e]
      exact key

theorem indexByteLoop_found (b : Nat) (c : List Nat) :
    ∀ (a d z : List Nat) (fuel : Nat), b ∉ c → c.length + 1 + d.length ≤ fuel →
      indexByteLoop (a ++ (c ++ b :: (d ++ z)))
        ((a.length : Int) + (c.length + 1 + d.length : Nat)) b fuel a.length
        = .ok ((a.length : Int) + c.length) := by
  induction c with
  | nil =>
    intro a d z fuel _ hf
    cases fuel with
    | zero => simp at hf
    | succ fuel =>
      have hlt : (a.length : Int) < (a.length : Int) + (([] : List Nat).length + 1 + d.length : Nat) := by
        push_cast; omega
      rw [indexByteLoop, if_pos hlt, List.nil_append, index_at_length]
      simp
  | cons x c ih =>
    intro a d z fuel hb hf
    cases fuel with
    | zero => simp at hf
    | succ fuel =>
      have hx : x ≠ b := fun h => hb (by simp [h])
      have hc : b ∉ c := fun h => hb (by simp [h])
      have hlt : (a.length : Int) < (a.length : Int) + (((x :: c).length + 1 + d.length : Nat) : Int) := by
        push_cast; omega
      have key := ih (a ++ [x]) d z fuel hc (by simp only [List.length_cons] at hf; omega)
      simp only [List.length_append, List.length_singleton, List.append_assoc,
        List.singleton_append] at key
      rw [indexByteLoop, if_pos hlt, List.cons_append, index_at_length]
      simp only [hx, if_false]
      have e1 : (a.length : Int) + (((x :: c).length + 1 + d.length : Nat) : Int)
          = ((a.length + 1 : Nat) : Int) + ((c.length + 1 + d.length : Nat) : Int) := by
        simp only [List.length_cons]; push_cast; omega
      have e2 : (a.length : Int) + 1 = ((a.length + 1 : Nat) : Int) := by push_cast; rfl
      have e3 : (a.length : Int) + ((x :: c).length : Int)
          = ((a.length + 1 : Nat) : Int) + (c.length : Int) := by
        simp only [List.length_cons]; push_cast; omega
      rw [e1, e2, e3]
      exact key

/-! ## The loop of `filter` against the automaton -/

theorem exists_first_occurrence (b : Nat) (c : List Nat) (h : b ∈ c) :
    ∃ c1 d, c = c1 ++ b :: d ∧ b ∉ c1 := by
  induction c with
  | nil => simp at h
  | cons x c ih =>
    by_cases hx : x = b
    · exact ⟨[], c, by simp [hx], by simp⟩
    · have hc : b ∈ c := by
        rcases List.mem_cons.mp h with h1 | h1
        · exact absurd h1.symm hx
        · exact h1
      obtain ⟨c1, d, e, hn⟩ := ih hc
      refine ⟨x :: c1, d, by simp [e], ?_⟩
      intro hm
      rcases List.mem_cons.mp hm with h1 | h1
      · exact hx h1.symm
      · exact hn h1

theorem runBytes_append (c d : List Nat) :
    ∀ state : ScanState, runBytes state (c ++ d)
      = ((runBytes state c).1 ++ (runBytes (runBytes state c).2 d).1,
          (runBytes (runBytes state c).2 d).2) := by
  induction c with
  | nil => intro state; simp [runBytes]
  | cons x c ih => intro state; simp [runBytes, ih]

theorem runBytes_start_absent (c : List Nat) (h : byteHash ∉ c) :
    runBytes stateStart c = (c, stateStart) := by
  induction c with
  | nil => simp [runBytes]
  | cons x c ih =>
    have hx : x ≠ byteHash := fun e => h (by simp [e])
    have hc : byteHash ∉ c := fun e => h (by simp [e])
    simp [runBytes, stepByte, hx, ih hc]

theorem runBytes_start_found (c d : List Nat) (h : byteHash ∉ c) :
    runBytes stateStart (c ++ byteHash :: d)
      = (c ++ byteHash :: (runBytes stateComment d).1, (runBytes stateComment d).2) := by
  rw [runBytes_append, runBytes_start_absent c h]
  simp [runBytes, stepByte]

theorem filterSwitch_other (a : List Nat) (x : Nat) (r : List Nat) (n : Int)
    (state : ScanState) (h : state ≠ stateStart) :
    filterSwitch (a ++ x :: r) n a.length state
      = .ok (.next (a ++ (stepByte state x).1 :: r) a.length (stepByte state x).2) := by
  simp only [filterSwitch, stepByte, index_at_length, assign_at_length, if_neg h]
  split_ifs <;> rfl

theorem filterSwitch_start_absent (a c z : List Nat) (h : byteHash ∉ c) :
    filterSwitch (a ++ (c ++ z)) ((a.length : Int) + c.length) a.length stateStart
      = .ok (.ret (a ++ (c ++ z)) stateStart) := by
  have hg : ¬ ((a.length : Int) < 0 ∨ (a.length : Int) + c.length > ((a ++ (c ++ z)).length : Nat)) := by
    simp only [List.length_append]; push_cast; omega
  have hf : ((a.length : Int) + c.length - a.length).toNat = c.length := by
    simp
  simp only [filterSwitch, if_true, indexByteWithOffset, if_neg hg, hf,
    indexByteLoop_absent byteHash c a z c.length h (le_refl _)]

theorem filterSwitch_start_found (a c d z : List Nat) (h : byteHash ∉ c) :
    filterSwitch (a ++ (c ++ byteHash :: (d ++ z)))
        ((a.length : Int) + (c.length + 1 + d.length : Nat)) a.length stateStart
      = .ok (.next (a ++ (c ++ byteHash :: (d ++ z))) ((a.length : Int) + c.length)
          stateComment) := by
  have hg : ¬ ((a.length : Int) < 0 ∨ (a.length : Int) + (c.length + 1 + d.length : Nat)
      > ((a ++ (c ++ byteHash :: (d ++ z))).length : Nat)) := by
    simp only [List.length_append, List.length_cons]; push_cast; omega
  have hf : ((a.length : Int) + (c.length + 1 + d.length : Nat) - a.length).toNat
      = c.length + 1 + d.length := by
    omega
  have hne : ¬ ((a.length : Int) + c.length = -1) := by omega
  simp only [filterSwitch, if_true, indexByteWithOffset, if_neg hg, hf,
    indexByteLoop_found byteHash c a d z _ h (le_refl _), if_neg hne]

theorem filterLoop_runBytes :
    ∀ (fuel : Nat) (a c z : List Nat) (state : ScanState), c.length ≤ fuel →
      filterLoop ((a.length : Int) + c.length) fuel (a ++ (c ++ z)) a.length state
        = .ok (a ++ ((runBytes state c).1 ++ z), (runBytes state c).2) := by
  intro fuel
  induction fuel with
  | zero =>
    intro a c z state hf
    have hc : c = [] := List.eq_nil_of_length_eq_zero (by omega)
    subst hc
    simp [filterLoop, runBytes]
  | succ fuel ih =>
    intro a c z state hf
    cases c with
    | nil => simp [filterLoop, runBytes]
    | cons x c =>
      have hlt : (a.length : Int) < (a.length : Int) + ((x :: c).length : Nat) := by
        simp only [List.length_cons]; push_cast; omega
      rw [filterLoop, if_pos hlt]
      by_cases hs : state = stateStart
      · subst hs
        by_cases hm : byteHash ∈ x :: c
        · obtain ⟨c1, d, e, hn⟩ := exists_first_occurrence byteHash (x :: c) hm
          have hlen : (x :: c).length = c1.length + 1 + d.length := by
            rw [e]; simp only [List.length_append, List.length_cons]; omega
          have hd : d.length ≤ fuel := by
            simp only [List.length_cons] at hlen hf; omega
          have key := ih (a ++ (c1 ++ [byteHash])) d z stateComment hd
          have e1 : (((a ++ (c1 ++ [byteHash])).length : Nat) : Int) + (d.length : Nat)
              = (a.length : Int) + ((c1.length + 1 + d.length : Nat) : Int) := by
            simp only [List.length_append, List.length_singleton]; push_cast; omega
          have e2 : (((a ++ (c1 ++ [byteHash])).length : Nat) : Int)
              = (a.length : Int) + c1.length + 1 := by
            simp only [List.length_append, List.length_singleton]; push_cast; omega
          have e3 : a ++ (c1 ++ [byteHash]) ++ (d ++ z) = a ++ (c1 ++ byteHash :: (d ++ z)) := by
            simp
          rw [e1, e2, e3] at key
          rw [hlen, e, List.append_assoc, List.cons_append,
            filterSwitch_start_found a c1 d z hn]
          simp only
          rw [key, runBytes_start_found c1 d hn]
          simp
        · rw [filterSwitch_start_absent a (x :: c) z hm, runBytes_start_absent (x :: c) hm]
      · have hc : c.length ≤ fuel := by simp only [List.length_cons] at hf; omega
        have key := ih (a ++ [(stepByte state x).1]) c z (stepByte state x).2 hc
        have e1 : (((a ++ [(stepByte state x).1]).length : Nat) : Int) + (c.length : Nat)
            = (a.length : Int) + ((x :: c).length : Nat) := by
          simp only [List.length_append, List.length_singleton, List.length_cons,
            List.length_nil]
          push_cast; ring
        have e2 : (((a ++ [(stepByte state x).1]).length : Nat) : Int)
            = (a.length : Int) + 1 := by
          simp only [List.length_append, List.length_singleton]; push_cast; rfl
        have hlt2 : (x :: c).length = c.length + 1 := List.length_cons x c
        rw [e1, e2] at key
        rw [List.cons_append, filterSwitch_other a x (c ++ z) _ state hs]
        simp only
        rw [List.append_assoc, List.singleton_append] at key
        rw [key]
        simp [runBytes]

/-- The call `filter(p, len(c), tf)` on a buffer `p = c ++ z` is the automaton run over `c`. -/
theorem filter_runBytes (c z : List Nat) (state : ScanState) :
    filter (c ++ z) c.length state = .ok ((runBytes state c).1 ++ z, (runBytes state c).2) := by
  have key := filterLoop_runBytes c.length [] c z state (le_refl _)
  simpa [filter] using key

theorem filter_whole (c : List Nat) (state : ScanState) :
    filter c c.length state = .ok ((runBytes state c).1, (runBytes state c).2) := by
  have key := filter_runBytes c [] state
  simpa using key

/-! ## Properties of the automaton -/

theorem runBytes_length (c : List Nat) :
    ∀ state : ScanState, (runBytes state c).1.length = c.length := by
  induction c with
  | nil => intro state; simp [runBytes]
  | cons x c ih => intro state; simp [runBytes, ih]

theorem filterChunks_runBytes (chunks : List (List Nat)) :
    ∀ state : ScanState, filterChunks state chunks
      = .ok ((runBytes state chunks.flatten).1, (runBytes state chunks.flatten).2) := by
  induction chunks with
  | nil => intro state; simp [filterChunks, runBytes]
  | cons c cs ih =>
    intro state
    have hl : (runBytes state c).1.length ≤ c.length := le_of_eq (runBytes_length c state)
    simp [filterChunks, filter_whole, ih, runBytes_append, List.take_of_length_le hl]

theorem stepByte_eseen_blank (b : Nat) (h : isAsciiSpaceOrTab b = true) :
    stepByte stateESeen b = (byteX, stateStart) := by
  simp [stepByte, h, stateESeen, stateStart, stateComment, stateWhitespace, stateTSeen,
    stateYSeen, statePSeen]

theorem stepByte_eseen_other (b : Nat) (h : isAsciiSpaceOrTab b = false) :
    stepByte stateESeen b = (b, stateStart) := by
  simp [stepByte, h, stateESeen, stateStart, stateComment, stateWhitespace, stateTSeen,
    stateYSeen, statePSeen]

/-- The only byte the automaton changes is a space or tab met in `stateESeen`. -/
theorem stepByte_fst (state : ScanState) (b : Nat) :
    (stepByte state b).1 = b ∨
      (state = stateESeen ∧ isAsciiSpaceOrTab b = true ∧ stepByte state b = (byteX, stateStart)) := by
  by_cases hs : state = stateESeen
  · subst hs
    cases hb : isAsciiSpaceOrTab b with
    | true => exact Or.inr ⟨rfl, rfl, stepByte_eseen_blank b hb⟩
    | false => left; rw [stepByte_eseen_other b hb]
  · left
    simp only [stepByte]
    split_ifs <;> rfl

theorem stepByte_idem (state : ScanState) (b : Nat) :
    stepByte state (stepByte state b).1 = stepByte state b := by
  rcases stepByte_fst state b with h | ⟨hs, _, hx⟩
  · rw [h]
  · subst hs
    rw [hx]
    exact stepByte_eseen_other byteX (by decide)

theorem runBytes_idem (c : List Nat) :
    ∀ state : ScanState, runBytes state (runBytes state c).1 = runBytes state c := by
  induction c with
  | nil => intro state; simp [runBytes]
  | cons x c ih => intro state; simp [runBytes, stepByte_idem, ih]

theorem stepByte_newline (state : ScanState) :
    stepByte state byteNewline = (byteNewline, stateStart) := by
  have h1 : isAsciiSpaceOrTab byteNewline = false := by decide
  have h2 : byteNewline ≠ byteHash := by decide
  have h3 : byteNewline ≠ byteT := by decide
  have h4 : byteNewline ≠ byteY := by decide
  have h5 : byteNewline ≠ byteP := by decide
  have h6 : byteNewline ≠ byteE := by decide
  simp only [stepByte]
  split_ifs <;> simp_all

theorem runBytes_lineStart (u : List Nat) (h : LineStart u) :
    (runBytes stateStart u).2 = stateStart := by
  rcases h with h | h
  · subst h; simp [runBytes]
  · obtain ⟨v, e⟩ := List.getLast?_eq_some_iff.mp h
    subst e
    simp [runBytes_append, runBytes, stepByte_newline]

theorem runBytes_blanks_whitespace (w : List Nat)
    (h : ∀ x ∈ w, isAsciiSpaceOrTab x = true) :
    runBytes stateWhitespace w = (w, stateWhitespace) := by
  induction w with
  | nil => simp [runBytes]
  | cons x w ih =>
    have hx : isAsciiSpaceOrTab x = true := h x (by simp)
    have hw : ∀ y ∈ w, isAsciiSpaceOrTab y = true := fun y hy => h y (by simp [hy])
    have hs : stepByte stateWhitespace x = (x, stateWhitespace) := by
      simp [stepByte, hx, stateWhitespace, stateStart, stateComment]
    simp [runBytes, hs, ih hw]

theorem runBytes_blanks_comment (w : List Nat) (h : Blanks w) :
    runBytes stateComment w = (w, stateWhitespace) := by
  obtain ⟨hne, hall⟩ := h
  cases w with
  | nil => exact absurd rfl hne
  | cons x w =>
    have hx : isAsciiSpaceOrTab x = true := hall x (by simp)
    have hw : ∀ y ∈ w, isAsciiSpaceOrTab y = true := fun y hy => hall y (by simp [hy])
    have hs : stepByte stateComment x = (x, stateWhitespace) := by
      simp [stepByte, hx, stateStart, stateComment]
    simp [runBytes, hs, runBytes_blanks_whitespace w hw]

theorem runBytes_typeToken : runBytes stateWhitespace typeToken = (typeToken, stateESeen) := by
  decide

/-- From `stateStart`, an occurrence of the pattern is rewritten and the automaton is
back in `stateStart` for what follows. -/
theorem runBytes_match (w : List Nat) (b : Nat) (t : List Nat) (hw : Blanks w)
    (hb : isAsciiSpaceOrTab b = true) :
    runBytes stateStart (byteHash :: (w ++ typeToken ++ b :: t))
      = (byteHash :: (w ++ typeToken ++ byteX :: (runBytes stateStart t).1),
          (runBytes stateStart t).2) := by
  have h0 : stepByte stateStart byteHash = (byteHash, stateComment) := by decide
  have e : runBytes stateStart (byteHash :: (w ++ typeToken ++ b :: t))
      = (byteHash :: (runBytes stateComment (w ++ typeToken ++ b :: t)).1,
          (runBytes stateComment (w ++ typeToken ++ b :: t)).2) := by
    simp [runBytes, h0]
  rw [e, runBytes_append, runBytes_append, runBytes_blanks_comment w hw, runBytes_typeToken]
  simp [runBytes, stepByte_eseen_blank b hb]

theorem runBytes_anchored (u w : List Nat) (b : Nat) (t : List Nat) (hu : LineStart u)
    (hw : Blanks w) (hb : isAsciiSpaceOrTab b = true) :
    runBytes stateStart (u ++ byteHash :: (w ++ typeToken ++ b :: t))
      = ((runBytes stateStart u).1 ++
            byteHash :: (w ++ typeToken ++ byteX :: (runBytes stateStart t).1),
          (runBytes stateStart t).2) := by
  rw [runBytes_append, runBytes_lineStart u hu, runBytes_match w b t hw hb]

theorem blank_ne_byteX (b : Nat) (hb : isAsciiSpaceOrTab b = true) : b ≠ byteX := by
  intro e
  subst e
  exact absurd hb (by decide)

theorem stepByte_start (b : Nat) :
    stepByte stateStart b = (b, if b = byteHash then stateComment else stateStart) := by
  simp [stepByte]

theorem stepByte_comment (b : Nat) :
    stepByte stateComment b
      = (b, if isAsciiSpaceOrTab b then stateWhitespace else stateStart) := by
  simp [stepByte, stateStart, stateComment]

theorem stepByte_whitespace (b : Nat) :
    stepByte stateWhitespace b
      = (b, if isAsciiSpaceOrTab b then stateWhitespace
            else if b = byteT then stateTSeen else stateStart) := by
  simp [stepByte, stateStart, stateComment, stateWhitespace]

theorem stepByte_tseen (b : Nat) :
    stepByte stateTSeen b = (b, if b = byteY then stateYSeen else stateStart) := by
  simp [stepByte, stateStart, stateComment, stateWhitespace, stateTSeen]

theorem stepByte_yseen (b : Nat) :
    stepByte stateYSeen b = (b, if b = byteP then statePSeen else stateStart) := by
  simp [stepByte, stateStart, stateComment, stateWhitespace, stateTSeen, stateYSeen]

theorem stepByte_pseen (b : Nat) :
    stepByte statePSeen b = (b, if b = byteE then stateESeen else stateStart) := by
  simp [stepByte, stateStart, stateComment, stateWhitespace, stateTSeen, stateYSeen,
    statePSeen]

theorem stepByte_eseen_snd (b : Nat) : (stepByte stateESeen b).2 = stateStart := by
  cases hb : isAsciiSpaceOrTab b with
  | true => rw [stepByte_eseen_blank b hb]
  | false => rw [stepByte_eseen_other b hb]

theorem history_start (hist : List Nat) : History hist stateStart := Or.inl rfl

theorem blanks_snoc (w : List Nat) (b : Nat) (hw : Blanks w)
    (hb : isAsciiSpaceOrTab b = true) : Blanks (w ++ [b]) := by
  refine ⟨by simp, ?_⟩
  intro x hx
  rcases List.mem_append.mp hx with h | h
  · exact hw.2 x h
  · rw [List.mem_singleton.mp h]; exact hb

/-- The history invariant is kept by every byte. -/
theorem history_step (hist : List Nat) (state : ScanState) (b : Nat)
    (h : History hist state) : History (hist ++ [b]) (stepByte state b).2 := by
  rcases h with h | ⟨h, u, e⟩ | ⟨u, w, k, e, hw, hk⟩
  · subst h
    rw [stepByte_start]
    by_cases hb : b = byteHash
    · rw [if_pos hb]
      exact Or.inr (Or.inl ⟨rfl, hist, by rw [hb]⟩)
    · rw [if_neg hb]
      exact history_start _
  · subst h
    rw [stepByte_comment]
    cases hb : isAsciiSpaceOrTab b with
    | true =>
      refine Or.inr (Or.inr ⟨u, [b], [], ?_, ⟨by simp, ?_⟩, Or.inl ⟨by simp, rfl⟩⟩)
      · rw [e]; simp
      · intro x hx; rw [List.mem_singleton.mp hx]; exact hb
    | false => exact history_start _
  · rcases hk with ⟨hs, hk⟩ | ⟨hs, hk⟩ | ⟨hs, hk⟩ | ⟨hs, hk⟩ | ⟨hs, hk⟩
    · subst hs hk
      rw [stepByte_whitespace]
      cases hb : isAsciiSpaceOrTab b with
      | true =>
        refine Or.inr (Or.inr ⟨u, w ++ [b], [], ?_, blanks_snoc w b hw hb, Or.inl ⟨by simp, rfl⟩⟩)
        rw [e]; simp
      | false =>
        by_cases ht : b = byteT
        · refine Or.inr (Or.inr ⟨u, w, [byteT], ?_, hw, Or.inr (Or.inl ⟨by simp [ht], rfl⟩)⟩)
          rw [e, ht]; simp
        · simp only [Bool.false_eq_true, if_false, if_neg ht]
          exact history_start _
    · subst hs hk
      rw [stepByte_tseen]
      by_cases hy : b = byteY
      · refine Or.inr (Or.inr ⟨u, w, [byteT, byteY], ?_, hw,
          Or.inr (Or.inr (Or.inl ⟨by simp [hy], rfl⟩))⟩)
        rw [e, hy]; simp
      · rw [if_neg hy]; exact history_start _
    · subst hs hk
      rw [stepByte_yseen]
      by_cases hy : b = byteP
      · refine Or.inr (Or.inr ⟨u, w, [byteT, byteY, byteP], ?_, hw,
          Or.inr (Or.inr (Or.inr (Or.inl ⟨by simp [hy], rfl⟩)))⟩)
        rw [e, hy]; simp
      · rw [if_neg hy]; exact history_start _
    · subst hs hk
      rw [stepByte_pseen]
      by_cases hy : b = byteE
      · refine Or.inr (Or.inr ⟨u, w, typeToken, ?_, hw,
          Or.inr (Or.inr (Or.inr (Or.inr ⟨by simp [hy], rfl⟩)))⟩)
        rw [e, hy]; simp [typeToken]
      · rw [if_neg hy]; exact history_start _
    · subst hs
      rw [stepByte_eseen_snd]
      exact history_start _

/-- A byte that the automaton changes completes an occurrence of the pattern. -/
theorem history_change (hist : List Nat) (state : ScanState) (b : Nat)
    (h : History hist state) (hne : (stepByte state b).1 ≠ b) :
    ∃ u w, hist ++ [b] = u ++ byteHash :: (w ++ typeToken ++ [b]) ∧ Blanks w ∧
      isAsciiSpaceOrTab b = true ∧ (stepByte state b).1 = byteX := by
  rcases stepByte_fst state b with h1 | ⟨hs, hb, hx⟩
  · exact absurd h1 hne
  · subst hs
    rcases h with h | ⟨h, _⟩ | ⟨u, w, k, e, hw, hk⟩
    · exact absurd h (by decide)
    · exact absurd h (by decide)
    · rcases hk with ⟨hs, hk⟩ | ⟨hs, hk⟩ | ⟨hs, hk⟩ | ⟨hs, hk⟩ | ⟨_, hk⟩
      · exact absurd hs (by decide)
      · exact absurd hs (by decide)
      · exact absurd hs (by decide)
      · exact absurd hs (by decide)
      · subst hk
        refine ⟨u, w, ?_, hw, hb, by rw [hx]⟩
        rw [e]; simp

theorem runBytes_changes (bs : List Nat) :
    ∀ (hist : List Nat) (state : ScanState), History hist state →
      ∀ m : Nat, (runBytes state bs).1[m]? ≠ bs[m]? →
        ∃ u w b, hist ++ bs.take (m + 1) = u ++ byteHash :: (w ++ typeToken ++ [b]) ∧
          Blanks w ∧ isAsciiSpaceOrTab b = true ∧ bs[m]? = some b ∧
          (runBytes state bs).1[m]? = some byteX := by
  induction bs with
  | nil =>
    intro hist state _ m hne
    simp [runBytes] at hne
  | cons x bs ih =>
    intro hist state h m hne
    cases m with
    | zero =>
      have hx : (stepByte state x).1 ≠ x := by
        intro e
        apply hne
        simp [runBytes, e]
      obtain ⟨u, w, e, hw, hb, hX⟩ := history_change hist state x h hx
      exact ⟨u, w, x, by simpa using e, hw, hb, by simp, by simp [runBytes, hX]⟩
    | succ m =>
      have hne2 : (runBytes (stepByte state x).2 bs).1[m]? ≠ bs[m]? := by
        intro e
        apply hne
        simp [runBytes, e]
      obtain ⟨u, w, b, e, hw, hb, hc, hX⟩ :=
        ih (hist ++ [x]) (stepByte state x).2 (history_step hist state x h) m hne2
      refine ⟨u, w, b, ?_, hw, hb, by simpa using hc, by simpa [runBytes] using hX⟩
      rw [← e]
      simp

/-- The call `filter(p, n, tf)` with `n <= len(p)` returns: the automaton has run over
the first `n` bytes and the rest of the buffer is as before. -/
theorem filter_take_drop (p : List Nat) (n : Int) (state : ScanState)
    (h : n ≤ (p.length : Int)) :
    filter p n state
      = .ok ((runBytes state (p.take n.toNat)).1 ++ p.drop n.toNat,
          (runBytes state (p.take n.toNat)).2) := by
  by_cases hn : n < 0
  · have h0 : n.toNat = 0 := by omega
    have h1 : ¬ (0 : Int) < n := by omega
    simp [filter, h0, filterLoop, h1, runBytes]
  · have hle : n.toNat ≤ p.length := by omega
    have hlen : ((p.take n.toNat).length : Int) = n := by
      rw [List.length_take, min_eq_left hle]; omega
    have key := filter_runBytes (p.take n.toNat) (p.drop n.toNat) state
    rw [List.take_append_drop, hlen] at key
    exact key

/-! ## The header loop of the definer -/

theorem bytesReader_len_pos (s : List Nat) (i : Nat) (h : i < s.length) :
    (BytesReader.mk s i).Len > 0 := by
  simp only [BytesReader.Len]
  rw [if_neg (by omega)]
  omega

theorem bytesReader_len_zero (s : List Nat) (i : Nat) (h : s.length ≤ i) :
    (BytesReader.mk s i).Len = 0 := by
  simp only [BytesReader.Len]
  rw [if_pos (by omega)]

theorem bytesReader_readByte (s : List Nat) (i : Nat) (h : i < s.length) :
    (BytesReader.mk s i).ReadByte = ((s[i], none), ⟨s, i + 1⟩) := by
  simp [BytesReader.ReadByte, List.getElem?_eq_getElem h]

theorem headerLoop_copy (s : List Nat) (r : List Nat) :
    ∀ (a : List Nat) (i fuel : Nat), r.length ≤ fuel →
      headerLoop fuel ⟨s, i⟩ (a ++ r) a.length
        = .ok (⟨s, i + min r.length (s.length - i)⟩,
            a ++ ((s.drop i).take r.length ++ r.drop (min r.length (s.length - i))),
            (a.length : Int) + (min r.length (s.length - i) : Nat)) := by
  induction r with
  | nil =>
    intro a i fuel _
    cases fuel <;> simp [headerLoop]
  | cons x r ih =>
    intro a i fuel hf
    cases fuel with
    | zero => simp at hf
    | succ fuel =>
      have hr : r.length ≤ fuel := by simp only [List.length_cons] at hf; omega
      by_cases hi : i < s.length
      · have hcond : (BytesReader.mk s i).Len > 0 ∧
            (a.length : Int) < ((a ++ x :: r).length : Nat) := by
          refine ⟨bytesReader_len_pos s i hi, ?_⟩
          simp only [List.length_append, List.length_cons]; push_cast; omega
        have key := ih (a ++ [s[i]]) (i + 1) fuel hr
        have e1 : (((a ++ [s[i]]).length : Nat) : Int) = (a.length : Int) + 1 := by
          simp only [List.length_append, List.length_singleton]; push_cast; rfl
        have e2 : a ++ [s[i]] ++ r = a ++ s[i] :: r := by simp
        rw [e1, e2] at key
        rw [headerLoop, if_pos hcond, bytesReader_readByte s i hi]
        simp only
        rw [assign_at_length]
        simp only
        rw [key]
        have hm : min (x :: r).length (s.length - i)
            = 1 + min r.length (s.length - (i + 1)) := by
          simp only [List.length_cons]; omega
        have hd : s.drop i = s[i] :: s.drop (i + 1) := List.drop_eq_getElem_cons hi
        rw [hm, hd]
        simp only [List.length_cons, List.take_succ_cons, List.append_assoc,
          List.singleton_append, List.cons_append]
        have hx : List.drop (1 + min r.length (s.length - (i + 1))) (x :: r)
            = List.drop (min r.length (s.length - (i + 1))) r := by
          rw [Nat.add_comm]; rfl
        rw [hx]
        generalize min r.length (s.length - (i + 1)) = m
        have e3 : i + 1 + m = i + (1 + m) := by omega
        have e4 : (a.length : Int) + 1 + (m : Nat) = (a.length : Int) + ((1 + m : Nat) : Int) := by
          push_cast; omega
        rw [e3, e4, List.nil_append]
      · have hlen : (BytesReader.mk s i).Len = 0 := bytesReader_len_zero s i (by omega)
        have hcond : ¬ ((BytesReader.mk s i).Len > 0 ∧
            (a.length : Int) < ((a ++ x :: r).length : Nat)) := by
          rw [hlen]; simp
        have h0 : s.length - i = 0 := by omega
        have hd : s.drop i = [] := List.drop_eq_nil_of_le (by omega)
        rw [headerLoop, if_neg hcond, h0, hd]
        simp

theorem headerLoop_whole (s p : List Nat) (i : Nat) :
    headerLoop p.length ⟨s, i⟩ p 0
      = .ok (⟨s, i + min p.length (s.length - i)⟩,
          (s.drop i).take p.length ++ p.drop (min p.length (s.length - i)),
          ((min p.length (s.length - i) : Nat) : Int)) := by
  have key := headerLoop_copy s p [] i p.length (le_refl _)
  simpa using key

theorem headerLoop_exhausted (h : BytesReader) (p : List Nat) (fuel : Nat)
    (hl : h.Len = 0) : headerLoop fuel h p 0 = .ok (h, p, 0) := by
  cases fuel <;> simp [headerLoop, hl]

set_option maxRecDepth 100000 in
theorem typeDefinitions_length : (bytes TypeDefinitions).length = 1454 := by decide

theorem newTypeDefiningReadCloser_len {σ : Type} (rc : σ) :
    (NewTypeDefiningReadCloser rc).header.Len = 1454 := by
  simp [NewTypeDefiningReadCloser, BytesReader.NewReader, BytesReader.Len,
    typeDefinitions_length]

theorem bytesReader_lt_of_len_pos (h : BytesReader) (hl : h.Len > 0) : h.i < h.s.length := by
  by_contra hc
  have h0 : h.Len = 0 := by
    simp only [BytesReader.Len]
    rw [if_pos (by omega)]
  omega

theorem typeDefiningRead_exhausted {σ : Type} (W : ReadCloser σ)
    (td : typeDefiningReadCloser σ) (p : List Nat) (h : td.header.Len = 0) :
    typeDefiningReadCloser.Read W td p
      = (match W.Read td.wrapped p with
        | .ok (r, w) => .ok (r, ⟨w, td.header⟩)
        | .indexOutOfRange => .indexOutOfRange
        | .outOfFuel => .outOfFuel) := by
  simp only [typeDefiningReadCloser.Read]
  rw [headerLoop_exhausted td.header p p.length h]
  simp

theorem typeDefiningRead_header {σ : Type} (W : ReadCloser σ) (w : σ) (s : List Nat)
    (i : Nat) (p : List Nat) (hp : p ≠ []) (hi : i < s.length) :
    typeDefiningReadCloser.Read W ⟨w, ⟨s, i⟩⟩ p
      = .ok (⟨(s.drop i).take p.length ++ p.drop (min p.length (s.length - i)),
            ((min p.length (s.length - i) : Nat) : Int), none⟩,
          ⟨w, ⟨s, i + min p.length (s.length - i)⟩⟩) ∧
    0 < min p.length (s.length - i) := by
  have hpl : 0 < p.length := List.length_pos.mpr hp
  have hm : 0 < min p.length (s.length - i) := by
    rw [lt_min_iff]; exact ⟨hpl, by omega⟩
  refine ⟨?_, hm⟩
  have hne : ((min p.length (s.length - i) : Nat) : Int) ≠ 0 := by omega
  have key := headerLoop_whole s p i
  simp only [typeDefiningReadCloser.Read]
  rw [key]
  simp only [if_pos hne]

/-! ## Reading to the end through the definer -/

theorem copy_fits (p c : List Nat) (h : c.length ≤ p.length) :
    copy p c = c ++ p.drop c.length := by
  simp [copy, List.take_of_length_le h]

/-- The filter's `Read` over the chunk source when a chunk is left: the chunk comes
back filtered, with the end of stream if it is the last one. -/
theorem filtering_read_chunk (pre rest : List (List Nat)) (chunk p : List Nat)
    (state : ScanState) (h : chunk.length ≤ p.length) :
    typeFilteringReadCloser.Read fragmentingSource
        ⟨⟨pre ++ chunk :: rest, pre.length, false⟩, state⟩ p
      = .ok (⟨(runBytes state chunk).1 ++ p.drop chunk.length, chunk.length,
            if rest = [] then some Err.EOF else none⟩,
          ⟨⟨pre ++ chunk :: rest, pre.length + 1, decide (rest = [])⟩,
            (runBytes state chunk).2⟩) := by
  have hlt : pre.length < (pre ++ chunk :: rest).length := by simp
  have hget : (pre ++ chunk :: rest)[pre.length + 1 - 1]? = some chunk := by
    rw [Nat.add_sub_cancel, List.getElem?_append_right (le_refl _)]; simp
  have hlast : (pre.length + 1 = (pre ++ chunk :: rest).length) ↔ rest = [] := by
    simp only [List.length_append, List.length_cons]
    constructor
    · intro e; exact List.eq_nil_of_length_eq_zero (by omega)
    · intro e; subst e; simp
  simp only [typeFilteringReadCloser.Read, fragmentingSource, fragmentingReadCloser.Read,
    Bool.false_eq_true, if_false, if_pos hlt, hget]
  by_cases hrest : rest = []
  · rw [if_pos (hlast.mpr hrest)]
    simp [copy_fits p chunk h, filter_runBytes, hrest]
  · rw [if_neg (fun e => hrest (hlast.mp e))]
    simp [copy_fits p chunk h, filter_runBytes, hrest]

/-- The filter's `Read` over the chunk source when no chunk is left. -/
theorem filtering_read_no_chunk (pre : List (List Nat)) (p : List Nat) (state : ScanState) :
    typeFilteringReadCloser.Read fragmentingSource ⟨⟨pre, pre.length, false⟩, state⟩ p
      = .ok (⟨p, 0, some Err.EOF⟩, ⟨⟨pre, pre.length, true⟩, state⟩) := by
  have h0 : filter p 0 state = .ok (p, state) := by
    have key := filter_take_drop p 0 state (by omega)
    simpa [runBytes] using key
  simp [typeFilteringReadCloser.Read, fragmentingSource, fragmentingReadCloser.Read, h0]

/-- Reading to the end once the header is exhausted: the chunks that are left come
back filtered, and the reading ends with the end of stream. -/
theorem readAll_chunks (bufs : Nat → List Nat) (hdr : BytesReader) (hl : hdr.Len = 0)
    (rest : List (List Nat)) :
    ∀ (pre : List (List Nat)) (state : ScanState) (k fuel : Nat),
      (∀ k, ∀ chunk ∈ rest, chunk.length ≤ (bufs k).length) → rest.length + 1 ≤ fuel →
      readAll (definingReadCloser (filteringReadCloser fragmentingSource)) bufs fuel k
          ⟨⟨⟨pre ++ rest, pre.length, false⟩, state⟩, hdr⟩
        = .ok ((runBytes state rest.flatten).1, Err.EOF) := by
  induction rest with
  | nil =>
    intro pre state k fuel _ hf
    cases fuel with
    | zero => omega
    | succ fuel =>
      have hd := typeDefiningRead_exhausted (filteringReadCloser fragmentingSource)
        ⟨⟨⟨pre ++ [], pre.length, false⟩, state⟩, hdr⟩ (bufs k) hl
      simp only [filteringReadCloser, List.append_nil, filtering_read_no_chunk] at hd
      simp only [readAll, definingReadCloser, filteringReadCloser, List.append_nil, hd]
      simp [runBytes]
  | cons chunk rest ih =>
    intro pre state k fuel hfit hf
    cases fuel with
    | zero => omega
    | succ fuel =>
      have hc : chunk.length ≤ (bufs k).length := hfit k chunk (by simp)
      have hd := typeDefiningRead_exhausted (filteringReadCloser fragmentingSource)
        ⟨⟨⟨pre ++ chunk :: rest, pre.length, false⟩, state⟩, hdr⟩ (bufs k) hl
      simp only [filteringReadCloser, filtering_read_chunk pre rest chunk (bufs k) state hc]
        at hd
      have htake : List.take chunk.length ((runBytes state chunk).1 ++ (bufs k).drop chunk.length)
          = (runBytes state chunk).1 := by
        rw [List.take_append_of_le_length (le_of_eq (runBytes_length chunk state).symm)]
        exact List.take_of_length_le (le_of_eq (runBytes_length chunk state))
      by_cases hrest : rest = []
      · subst hrest
        simp only [readAll, definingReadCloser, filteringReadCloser, hd, if_true,
          Int.toNat_ofNat, htake]
        simp
      · have hfit2 : ∀ k, ∀ c2 ∈ rest, c2.length ≤ (bufs k).length :=
          fun k c2 hc2 => hfit k c2 (by simp [hc2])
        have hf2 : rest.length + 1 ≤ fuel := by
          simp only [List.length_cons] at hf; omega
        have key := ih (pre ++ [chunk]) (runBytes state chunk).2 (k + 1) fuel hfit2 hf2
        have e1 : pre ++ [chunk] ++ rest = pre ++ chunk :: rest := by simp
        have e2 : (pre ++ [chunk]).length = pre.length + 1 := by simp
        rw [e1, e2] at key
        simp only [readAll, definingReadCloser, filteringReadCloser, hd, if_neg hrest,
          Int.toNat_ofNat, htake, hrest, decide_False]
        simp only [definingReadCloser, filteringReadCloser] at key
        rw [key]
        simp [runBytes_append]

/-- Reading to the end while header bytes are unread: the unread header bytes come
first, then what the reading gives once the header is exhausted. -/
theorem readAll_header {σ : Type} (W : ReadCloser σ) (bufs : Nat → List Nat)
    (hne : ∀ k, bufs k ≠ []) (w : σ) (s : List Nat) (tail : List Nat) (e : Err) (F : Nat)
    (hrest : ∀ k fuel, F ≤ fuel →
      readAll (definingReadCloser W) bufs fuel k ⟨w, ⟨s, s.length⟩⟩ = .ok (tail, e)) :
    ∀ (d i k fuel : Nat), s.length - i ≤ d → i ≤ s.length → F + (s.length - i) ≤ fuel →
      readAll (definingReadCloser W) bufs fuel k ⟨w, ⟨s, i⟩⟩ = .ok (s.drop i ++ tail, e) := by
  intro d
  induction d with
  | zero =>
    intro i k fuel hd hi hf
    have hi2 : i = s.length := by omega
    subst hi2
    rw [hrest k fuel (by omega)]
    simp
  | succ d ih =>
    intro i k fuel hd hi hf
    by_cases hi2 : i = s.length
    · subst hi2
      rw [hrest k fuel (by omega)]
      simp
    · have hlt : i < s.length := by omega
      cases fuel with
      | zero => omega
      | succ fuel =>
        obtain ⟨hread, hm⟩ := typeDefiningRead_header W w s i (bufs k) (hne k) hlt
        have hmle : min (bufs k).length (s.length - i) ≤ s.length - i := min_le_right _ _
        have key := ih (i + min (bufs k).length (s.length - i)) (k + 1) fuel
          (by omega) (by omega) (by omega)
        have htake : List.take (min (bufs k).length (s.length - i))
            ((s.drop i).take (bufs k).length
              ++ (bufs k).drop (min (bufs k).length (s.length - i)))
            = (s.drop i).take (min (bufs k).length (s.length - i)) := by
          have hl : ((s.drop i).take (bufs k).length).length
              = min (bufs k).length (s.length - i) := by
            simp [List.length_take, List.length_drop]
          rw [List.take_append_of_le_length (le_of_eq hl.symm), List.take_take]
          simp
        have hsplit : (s.drop i).take (min (bufs k).length (s.length - i))
            ++ s.drop (i + min (bufs k).length (s.length - i)) = s.drop i := by
          rw [← List.drop_drop]
          exact List.take_append_drop _ _
        simp only [readAll, definingReadCloser, hread, Int.toNat_ofNat, htake]
        simp only [definingReadCloser] at key
        rw [key]
        simp only [← List.append_assoc, hsplit]

/-- Claim C1. However a byte string is cut into chunks (empty chunks included), and
whatever state the automaton starts in, the calls of `filter` on the chunks one after
another, with the state carried over, return: their outputs concatenated are the
output of the one call of `filter` on the whole string, and the last state is the
state that call ends in. -/
theorem filter_chunk_invariance (state : ScanState) (chunks : List (List Nat)) :
    ∃ out final,
      filter chunks.flatten chunks.flatten.length state = .ok (out, final) ∧
      filterChunks state chunks = .ok (out, final) :=
  ⟨_, _, filter_whole _ _, filterChunks_runBytes _ _⟩

/-- Claim C2. A filter that starts in `stateStart` and is fed a stream in chunks, cut
anywhere, returns, and the concatenated output holds no `#` at its start or right
after a newline that is followed by blanks, `TYPE` and a space or tab. -/
theorem no_line_anchored_type_survives (chunks : List (List Nat)) :
    ∃ out final, filterChunks stateStart chunks = .ok (out, final) ∧
      ¬ ∃ u w b t, LineStart u ∧ OccursAt out u w b t := by
  refine ⟨_, _, filterChunks_runBytes chunks stateStart, ?_⟩
  rintro ⟨u, w, b, t, hu, e, hw, hb⟩
  have hid := runBytes_idem chunks.flatten stateStart
  rw [e, runBytes_anchored u w b t hu hw hb] at hid
  have h1 := congrArg Prod.fst hid
  simp only [] at h1
  rw [e] at h1
  have h2 := (List.append_inj h1 (runBytes_length u stateStart)).2
  have h3 := List.append_cancel_left (List.cons.inj h2).2
  have h4 := (List.cons.inj h3).1
  exact blank_ne_byteX b hb h4.symm

/-- Claim C3. With `u` empty or ending in a newline, `w` a non-empty run of spaces and
tabs and `b` a space or a tab, a filter in `stateStart` turns
`u ++ "#" ++ w ++ "TYPE" ++ [b] ++ t` into the filtered `u`, then `#`, `w`, `TYPE`
and `X`, then `t` filtered from `stateStart`; the calls on `u` and on `t` return, and
the one on `u` ends in `stateStart`. The two strings of the tests are instances. -/
theorem filter_line_anchored_rewrite :
    (∀ (u w : List Nat) (b : Nat) (t : List Nat), LineStart u → Blanks w →
      isAsciiSpaceOrTab b = true →
      ∃ ou ot final,
        filter u u.length stateStart = .ok (ou, stateStart) ∧
        filter t t.length stateStart = .ok (ot, final) ∧
        filter (u ++ byteHash :: (w ++ typeToken ++ b :: t))
            (u ++ byteHash :: (w ++ typeToken ++ b :: t)).length stateStart
          = .ok (ou ++ byteHash :: (w ++ typeToken ++ byteX :: ot), final)) ∧
    filter (bytes "\n# TYPE metricName counter\n") 27 stateStart
      = .ok (bytes "\n# TYPEXmetricName counter\n", stateStart) ∧
    filter (bytes "# \t TYPE foo") 12 stateStart = .ok (bytes "# \t TYPEXfoo", stateStart) := by
  refine ⟨?_, by decide, by decide⟩
  intro u w b t hu hw hb
  refine ⟨(runBytes stateStart u).1, (runBytes stateStart t).1, (runBytes stateStart t).2,
    ?_, filter_whole t stateStart, ?_⟩
  · rw [filter_whole, runBytes_lineStart u hu]
  · rw [filter_whole, runBytes_anchored u w b t hu hw hb]

/-- Witness of C3 at `"\n# TYPE metricName counter\n"`: `u` is the newline, `w` and `b`
are one space each. -/
theorem filter_line_anchored_rewrite_witness :
    LineStart [byteNewline] ∧ Blanks [byteSpace] ∧ isAsciiSpaceOrTab byteSpace = true ∧
    ∃ ou ot final,
      filter [byteNewline] [byteNewline].length stateStart = .ok (ou, stateStart) ∧
      filter (bytes "metricName counter\n") (bytes "metricName counter\n").length stateStart
        = .ok (ot, final) ∧
      filter ([byteNewline] ++ byteHash ::
            ([byteSpace] ++ typeToken ++ byteSpace :: bytes "metricName counter\n"))
          ([byteNewline] ++ byteHash ::
            ([byteSpace] ++ typeToken ++ byteSpace :: bytes "metricName counter\n")).length
          stateStart
        = .ok (ou ++ byteHash :: ([byteSpace] ++ typeToken ++ byteX :: ot), final) :=
  ⟨Or.inr rfl, ⟨by decide, by decide⟩, by decide,
    filter_line_anchored_rewrite.1 [byteNewline] [byteSpace] byteSpace
      (bytes "metricName counter\n") (Or.inr rfl) ⟨by decide, by decide⟩ (by decide)⟩

/-- Claim C4. A filter that starts in `stateStart` and is fed a stream `s` in chunks
returns an output as long as `s`. Wherever the output differs from `s`, the byte of
`s` is a space or tab, the byte of the output is `X`, and the bytes of `s` up to and
including that one end with `#`, a non-empty run of spaces and tabs, `TYPE` and that
byte. Hence a stream without an occurrence of the pattern comes out unchanged, as do
`"#TYPE foo"` and `"# TYPE-foo"`. -/
theorem filter_changes_only_matches (chunks : List (List Nat)) :
    ∃ out final, filterChunks stateStart chunks = .ok (out, final) ∧
      out.length = chunks.flatten.length ∧
      (∀ m : Nat, out[m]? ≠ chunks.flatten[m]? →
        ∃ u w b, chunks.flatten.take (m + 1) = u ++ byteHash :: (w ++ typeToken ++ [b]) ∧
          Blanks w ∧ isAsciiSpaceOrTab b = true ∧ chunks.flatten[m]? = some b ∧
          out[m]? = some byteX) ∧
      ((¬ ∃ u w b t, OccursAt chunks.flatten u w b t) → out = chunks.flatten) ∧
      filter (bytes "#TYPE foo") 9 stateStart = .ok (bytes "#TYPE foo", stateStart) ∧
      filter (bytes "# TYPE-foo") 10 stateStart = .ok (bytes "# TYPE-foo", stateStart) := by
  have hch := runBytes_changes chunks.flatten [] stateStart (history_start [])
  refine ⟨_, _, filterChunks_runBytes chunks stateStart, runBytes_length _ _, ?_, ?_,
    by decide, by decide⟩
  · intro m hne
    obtain ⟨u, w, b, e, hw, hb, hc, hX⟩ := hch m hne
    exact ⟨u, w, b, by simpa using e, hw, hb, hc, hX⟩
  · intro hno
    apply List.ext_getElem?
    intro m
    by_contra hne
    obtain ⟨u, w, b, e, hw, hb, _, _⟩ := hch m hne
    apply hno
    refine ⟨u, w, b, chunks.flatten.drop (m + 1), ?_, hw, hb⟩
    have e2 : chunks.flatten.take (m + 1) ++ chunks.flatten.drop (m + 1) = chunks.flatten :=
      List.take_append_drop (m + 1) chunks.flatten
    rw [List.nil_append] at e
    rw [e] at e2
    generalize chunks.flatten.drop (m + 1) = t at e2
    rw [← e2]
    simp

/-- Claim C5, the code at the failing input. The stream `"## TYPE x"` holds an
occurrence of `#`, a blank, `TYPE`, a blank (after its first byte), which the regex
named in the package comment of `filter.go` matches; a filter that starts in
`stateStart` returns the stream unchanged: the blank at index 7 is still a space,
where the comment promises an `X`. -/
theorem regex_occurrence_missed :
    OccursAt (bytes "## TYPE x") [byteHash] [byteSpace] byteSpace (bytes "x") ∧
    filter (bytes "## TYPE x") 9 stateStart = .ok (bytes "## TYPE x", stateStart) ∧
    (bytes "## TYPE x")[7]? = some byteSpace :=
  ⟨⟨by decide, ⟨by decide, by decide⟩, by decide⟩, by decide, by decide⟩

/-- The occurrences that the code does rewrite. For a filter that starts in
`stateStart`: at every occurrence of `#`, a non-empty run of spaces and tabs, `TYPE` and
a space or tab whose `#` is read in `stateStart` (the filter run over the bytes `u`
before it ends in `stateStart`), the call returns and the output holds `X` in the place
of the trailing space or tab. -/
theorem filter_rewrites_match_read_from_start (u w : List Nat) (b : Nat) (t : List Nat)
    (hu : ∃ ou, filter u u.length stateStart = .ok (ou, stateStart))
    (hw : Blanks w) (hb : isAsciiSpaceOrTab b = true) :
    ∃ out final,
      filter (u ++ byteHash :: (w ++ typeToken ++ b :: t))
          (u ++ byteHash :: (w ++ typeToken ++ b :: t)).length stateStart
        = .ok (out, final) ∧
      (u ++ byteHash :: (w ++ typeToken ++ b :: t))[u.length + 1 + w.length + 4]? = some b ∧
      out[u.length + 1 + w.length + 4]? = some byteX := by
  obtain ⟨ou, hou⟩ := hu
  rw [filter_whole] at hou
  have hst : (runBytes stateStart u).2 = stateStart := by
    injection hou with h
    exact congrArg Prod.snd h
  have hlen : (runBytes stateStart u).1.length = u.length := runBytes_length u stateStart
  have e4 : typeToken.length = 4 := rfl
  refine ⟨_, _, filter_whole _ _, ?_, ?_⟩
  · have h1 : u.length + 1 + w.length + 4 = (u ++ byteHash :: (w ++ typeToken)).length := by
      simp only [List.length_append, List.length_cons, e4]; omega
    have h2 : u ++ byteHash :: (w ++ typeToken ++ b :: t)
        = (u ++ byteHash :: (w ++ typeToken)) ++ b :: t := by simp
    rw [h1, h2, List.getElem?_append_right (le_refl _)]
    simp
  · rw [runBytes_append, hst, runBytes_match w b t hw hb]
    have h1 : u.length + 1 + w.length + 4
        = ((runBytes stateStart u).1 ++ byteHash :: (w ++ typeToken)).length := by
      simp only [List.length_append, List.length_cons, e4, hlen]; omega
    have h2 : (runBytes stateStart u).1
          ++ byteHash :: (w ++ typeToken ++ byteX :: (runBytes stateStart t).1)
        = ((runBytes stateStart u).1 ++ byteHash :: (w ++ typeToken))
          ++ byteX :: (runBytes stateStart t).1 := by simp
    simp only
    rw [h1, h2, List.getElem?_append_right (le_refl _)]
    simp

/-- An instance of the rewrite above at `"a# TYPE x"`: the byte `a` leaves the
automaton in `stateStart`. -/
theorem filter_rewrites_match_read_from_start_witness :
    (∃ ou, filter (bytes "a") (bytes "a").length stateStart = .ok (ou, stateStart)) ∧
    Blanks [byteSpace] ∧ isAsciiSpaceOrTab byteSpace = true ∧
    ∃ out final,
      filter (bytes "a" ++ byteHash :: ([byteSpace] ++ typeToken ++ byteSpace :: bytes "x"))
          (bytes "a" ++ byteHash :: ([byteSpace] ++ typeToken ++ byteSpace :: bytes "x")).length
          stateStart
        = .ok (out, final) ∧
      (bytes "a" ++ byteHash :: ([byteSpace] ++ typeToken ++ byteSpace :: bytes "x"))[
          (bytes "a").length + 1 + [byteSpace].length + 4]? = some byteSpace ∧
      out[(bytes "a").length + 1 + [byteSpace].length + 4]? = some byteX :=
  ⟨⟨bytes "a", by decide⟩, ⟨by decide, by decide⟩, by decide,
    filter_rewrites_match_read_from_start (bytes "a") [byteSpace] byteSpace (bytes "x")
      ⟨bytes "a", by decide⟩ ⟨by decide, by decide⟩ (by decide)⟩

theorem stepByte_hash_past_start (state : ScanState)
    (h : state ∈ [stateComment, stateWhitespace, stateTSeen, stateYSeen, statePSeen,
      stateESeen]) :
    stepByte state byteHash = (byteHash, stateStart) := by
  simp only [List.mem_cons, List.mem_singleton, List.mem_nil_iff, or_false] at h
  rcases h with h | h | h | h | h | h <;> subst h <;> decide

/-- Claim C6. In each of the states `stateComment`, `stateWhitespace`, `stateTSeen`,
`stateYSeen`, `statePSeen` and `stateESeen`, a `#` is left as it is and puts the filter
in `stateStart`, and the bytes `t` after it are filtered from `stateStart`. So the
stream `"## TYPE x"`, which holds an occurrence of the pattern after its first byte,
is returned unchanged by a filter that starts in `stateStart`. -/
theorem hash_not_reexamined :
    (∀ (state : ScanState) (t : List Nat),
      state ∈ [stateComment, stateWhitespace, stateTSeen, stateYSeen, statePSeen,
        stateESeen] →
      filter [byteHash] 1 state = .ok ([byteHash], stateStart) ∧
      ∃ ot final, filter t t.length stateStart = .ok (ot, final) ∧
        filter (byteHash :: t) (byteHash :: t).length state = .ok (byteHash :: ot, final)) ∧
    OccursAt (bytes "## TYPE x") [byteHash] [byteSpace] byteSpace (bytes "x") ∧
    filter (bytes "## TYPE x") 9 stateStart = .ok (bytes "## TYPE x", stateStart) := by
  refine ⟨?_, ⟨by decide, ⟨by decide, by decide⟩, by decide⟩, by decide⟩
  intro state t h
  have hs := stepByte_hash_past_start state h
  refine ⟨?_, _, _, filter_whole t stateStart, ?_⟩
  · have key := filter_whole [byteHash] state
    simpa [runBytes, hs] using key
  · rw [filter_whole]
    simp [runBytes, hs]

/-- Witness of C6 in `stateESeen`, with `" TYPE x"` after the `#`. -/
theorem hash_not_reexamined_witness :
    stateESeen ∈ [stateComment, stateWhitespace, stateTSeen, stateYSeen, statePSeen,
        stateESeen] ∧
    filter [byteHash] 1 stateESeen = .ok ([byteHash], stateStart) ∧
    ∃ ot final, filter (bytes " TYPE x") (bytes " TYPE x").length stateStart = .ok (ot, final) ∧
      filter (byteHash :: bytes " TYPE x") (byteHash :: bytes " TYPE x").length stateESeen
        = .ok (byteHash :: ot, final) :=
  ⟨by decide, hash_not_reexamined.1 stateESeen (bytes " TYPE x") (by decide)⟩

/-- Claim C7. For chunks of any content and buffers `bufs 0, bufs 1, ...` that are not
empty and hold every chunk, a caller that reads the definer over the filter over the
chunk source to the end, with at least as many calls allowed as there are header bytes
and chunks and one more, gets the end of stream and, before it, `TypeDefinitions`
followed by the output of `filter` run once over the whole content. -/
theorem preamble_composition (chunks : List (List Nat)) (bufs : Nat → List Nat)
    (hne : ∀ k, bufs k ≠ [])
    (hfit : ∀ k, ∀ chunk ∈ chunks, chunk.length ≤ (bufs k).length)
    (fuel : Nat) (hf : (bytes TypeDefinitions).length + chunks.length + 1 ≤ fuel) :
    ∃ out final,
      filter chunks.flatten chunks.flatten.length stateStart = .ok (out, final) ∧
      readAll (definingReadCloser (filteringReadCloser fragmentingSource)) bufs fuel 0
          (NewTypeDefiningReadCloser (NewTypeFilteringReadCloser
            (newFragmentingReadCloser chunks)))
        = .ok (bytes TypeDefinitions ++ out, Err.EOF) := by
  refine ⟨_, _, filter_whole _ _, ?_⟩
  have hB : ∀ k fuel, chunks.length + 1 ≤ fuel →
      readAll (definingReadCloser (filteringReadCloser fragmentingSource)) bufs fuel k
          ⟨⟨⟨chunks, 0, false⟩, stateStart⟩,
            ⟨bytes TypeDefinitions, (bytes TypeDefinitions).length⟩⟩
        = .ok ((runBytes stateStart chunks.flatten).1, Err.EOF) := by
    intro k fuel hfuel
    have key := readAll_chunks bufs
      ⟨bytes TypeDefinitions, (bytes TypeDefinitions).length⟩
      (bytesReader_len_zero _ _ (le_refl _)) chunks [] stateStart k fuel hfit hfuel
    simpa using key
  have hA := readAll_header (filteringReadCloser fragmentingSource) bufs hne
    ⟨⟨chunks, 0, false⟩, stateStart⟩ (bytes TypeDefinitions)
    (runBytes stateStart chunks.flatten).1 Err.EOF (chunks.length + 1) hB
    (bytes TypeDefinitions).length 0 0 fuel (by omega) (by omega) (by omega)
  simpa [NewTypeDefiningReadCloser, NewTypeFilteringReadCloser, newFragmentingReadCloser,
    BytesReader.NewReader] using hA

/-- Witness of C7: the content `"# TYPE a\n"` in two chunks, read with buffers of eight
bytes. -/
theorem preamble_composition_witness :
    ∃ out final,
      filter [bytes "# TYPE", bytes " a\n"].flatten
          [bytes "# TYPE", bytes " a\n"].flatten.length stateStart = .ok (out, final) ∧
      readAll (definingReadCloser (filteringReadCloser fragmentingSource))
          (fun _ => List.replicate 8 0) 1457 0
          (NewTypeDefiningReadCloser (NewTypeFilteringReadCloser
            (newFragmentingReadCloser [bytes "# TYPE", bytes " a\n"])))
        = .ok (bytes TypeDefinitions ++ out, Err.EOF) :=
  preamble_composition [bytes "# TYPE", bytes " a\n"] (fun _ => List.replicate 8 0)
    (fun _ => (by decide : List.replicate 8 0 ≠ []))
    (fun _ chunk hc => by
      simp only [List.mem_cons, List.mem_singleton, List.mem_nil_iff, or_false] at hc
      rcases hc with hc | hc
      · subst hc; exact (by decide : (bytes "# TYPE").length ≤ (List.replicate 8 0).length)
      · subst hc; exact (by decide : (bytes " a\n").length ≤ (List.replicate 8 0).length))
    1457 (by rw [typeDefinitions_length]; decide)

/-- Counterexample to C8 as stated. With the empty buffer, a fresh definer (cursor 0,
1454 header bytes unread) over a source whose one chunk is empty reads from the
wrapped source and returns its end of stream instead of `(0, nil)`. -/
theorem defining_read_empty_buffer_delegates :
    (NewTypeDefiningReadCloser (newFragmentingReadCloser [[]])).header.Len > 0 ∧
    typeDefiningReadCloser.Read fragmentingSource
        (NewTypeDefiningReadCloser (newFragmentingReadCloser [[]])) []
      = .ok (⟨[], 0, some Err.EOF⟩,
          ⟨⟨[[]], 1, true⟩, BytesReader.NewReader (bytes TypeDefinitions)⟩) := by
  refine ⟨by rw [newTypeDefiningReadCloser_len]; decide, ?_⟩
  simp [typeDefiningReadCloser.Read, headerLoop, NewTypeDefiningReadCloser, fragmentingSource,
    fragmentingReadCloser.Read, newFragmentingReadCloser, copy]

/-- Claim C8, amended. A `Read` call with a non-empty buffer `p`, made while header
bytes are unread, copies `min(len(p), unread)` header bytes from the cursor on to the
start of `p` and leaves the rest of `p`, returns that count (which is positive) with a
nil error, moves the cursor forward by it, and leaves the wrapped stream as it was,
whatever the wrapped stream is. -/
theorem defining_read_serves_header {σ : Type} (W : ReadCloser σ)
    (td : typeDefiningReadCloser σ) (p : List Nat) (hp : p ≠ [])
    (hh : td.header.Len > 0) :
    typeDefiningReadCloser.Read W td p
      = .ok (⟨(td.header.s.drop td.header.i).take p.length
              ++ p.drop (min p.length (td.header.s.length - td.header.i)),
            ((min p.length (td.header.s.length - td.header.i) : Nat) : Int), none⟩,
          ⟨td.wrapped,
            ⟨td.header.s, td.header.i + min p.length (td.header.s.length - td.header.i)⟩⟩) ∧
    0 < min p.length (td.header.s.length - td.header.i) := by
  have hi := bytesReader_lt_of_len_pos td.header hh
  exact typeDefiningRead_header W td.wrapped td.header.s td.header.i p hp hi

/-- Witness of the amended C8: a fresh definer and a buffer of three bytes. -/
theorem defining_read_serves_header_witness :
    ([0, 0, 0] : List Nat) ≠ [] ∧
    (NewTypeDefiningReadCloser (newFragmentingReadCloser [[1]])).header.Len > 0 ∧
    0 < min ([0, 0, 0] : List Nat).length
      ((NewTypeDefiningReadCloser (newFragmentingReadCloser [[1]])).header.s.length
        - (NewTypeDefiningReadCloser (newFragmentingReadCloser [[1]])).header.i) :=
  ⟨by decide, by rw [newTypeDefiningReadCloser_len]; decide,
    (defining_read_serves_header fragmentingSource
      (NewTypeDefiningReadCloser (newFragmentingReadCloser [[1]])) [0, 0, 0] (by decide)
      (by rw [newTypeDefiningReadCloser_len]; decide)).2⟩

/-- Claim C9. A call `Read(p)` of the filter makes one `Read(p)` on the wrapped source.
When that call returns `(n, err)` with `n <= len(p)`, as `io.Reader` asks of it, the
filter returns the same `n` and the same `err`, nil or not, zero bytes or not; the
buffer is the one `filter` leaves when run over the `n` bytes from the state the reader
was in, the state is the one `filter` ends in, and the wrapped source is as that one
call left it. -/
theorem filtering_read_passes_through {σ : Type} (W : ReadCloser σ)
    (tf : typeFilteringReadCloser σ) (p : List Nat) (r : ReadResult) (w : σ)
    (hr : W.Read tf.wrapped p = .ok (r, w)) (hn : r.n ≤ (r.p.length : Int)) :
    ∃ q s, filter r.p r.n tf.state = .ok (q, s) ∧
      typeFilteringReadCloser.Read W tf p = .ok (⟨q, r.n, r.err⟩, ⟨w, s⟩) := by
  refine ⟨_, _, filter_take_drop r.p r.n tf.state hn, ?_⟩
  simp only [typeFilteringReadCloser.Read]
  rw [hr]
  simp only
  rw [filter_take_drop r.p r.n tf.state hn]

/-- Witness of C9: the source returns its only chunk, eight bytes, together with the
end of stream. -/
theorem filtering_read_passes_through_witness :
    fragmentingSource.Read
        (NewTypeFilteringReadCloser (newFragmentingReadCloser [bytes "# TYPE a"])).wrapped
        (List.replicate 8 0)
      = .ok (⟨bytes "# TYPE a", 8, some Err.EOF⟩, ⟨[bytes "# TYPE a"], 1, true⟩) ∧
    ((8 : Int) ≤ ((bytes "# TYPE a").length : Int)) ∧
    ∃ q s, filter (bytes "# TYPE a") 8 stateStart = .ok (q, s) ∧
      typeFilteringReadCloser.Read fragmentingSource
          (NewTypeFilteringReadCloser (newFragmentingReadCloser [bytes "# TYPE a"]))
          (List.replicate 8 0)
        = .ok (⟨q, 8, some Err.EOF⟩, ⟨⟨[bytes "# TYPE a"], 1, true⟩, s⟩) :=
  ⟨by decide, by decide,
    filtering_read_passes_through fragmentingSource
      (NewTypeFilteringReadCloser (newFragmentingReadCloser [bytes "# TYPE a"]))
      (List.replicate 8 0) ⟨bytes "# TYPE a", 8, some Err.EOF⟩ ⟨[bytes "# TYPE a"], 1, true⟩
      (by decide) (by decide)⟩

/-- Claim C10. Once no header byte is unread, a `Read(p)` of the definer is the
`Read(p)` of the wrapped stream on the same buffer: it returns what that call returns
(buffer, `n` and `err`), or fails as it fails, and the header reader stays as it is, at
its end. -/
theorem defining_read_delegates {σ : Type} (W : ReadCloser σ)
    (td : typeDefiningReadCloser σ) (p : List Nat) (h : td.header.Len = 0) :
    typeDefiningReadCloser.Read W td p
      = (match W.Read td.wrapped p with
        | .ok (r, w) => .ok (r, ⟨w, td.header⟩)
        | .indexOutOfRange => .indexOutOfRange
        | .outOfFuel => .outOfFuel) :=
  typeDefiningRead_exhausted W td p h

/-- Witness of C10: a definer whose header reader stands at its end, index 1454, over
a source of one chunk. -/
theorem defining_read_delegates_witness :
    (BytesReader.mk (bytes TypeDefinitions) 1454).Len = 0 ∧
    typeDefiningReadCloser.Read fragmentingSource
        ⟨newFragmentingReadCloser [[1, 2]], ⟨bytes TypeDefinitions, 1454⟩⟩ [0, 0, 0]
      = (match fragmentingSource.Read (newFragmentingReadCloser [[1, 2]]) [0, 0, 0] with
        | .ok (r, w) => .ok (r, ⟨w, ⟨bytes TypeDefinitions, 1454⟩⟩)
        | .indexOutOfRange => .indexOutOfRange
        | .outOfFuel => .outOfFuel) :=
  ⟨bytesReader_len_zero _ _ (le_of_eq typeDefinitions_length),
    defining_read_delegates fragmentingSource
      ⟨newFragmentingReadCloser [[1, 2]], ⟨bytes TypeDefinitions, 1454⟩⟩ [0, 0, 0]
      (bytesReader_len_zero _ _ (le_of_eq typeDefinitions_length))⟩

/-! ## Close -/

/-- Counterexample to C11 as stated. `Close` called twice on a filter, and on a definer,
over a source that counts the calls of its `Close`: the counter stands at 2 afterwards,
and the second call returned nil like the first. -/
theorem close_twice_reaches_source_twice :
    (typeFilteringReadCloser.Close (countingCloses fragmentingSource)
      (typeFilteringReadCloser.Close (countingCloses fragmentingSource)
        (NewTypeFilteringReadCloser (newFragmentingReadCloser [], 0))).2).2.wrapped.2 = 2 ∧
    (typeFilteringReadCloser.Close (countingCloses fragmentingSource)
      (typeFilteringReadCloser.Close (countingCloses fragmentingSource)
        (NewTypeFilteringReadCloser (newFragmentingReadCloser [], 0))).2).1 = none ∧
    (typeDefiningReadCloser.Close (countingCloses fragmentingSource)
      (typeDefiningReadCloser.Close (countingCloses fragmentingSource)
        (NewTypeDefiningReadCloser (newFragmentingReadCloser [], 0))).2).2.wrapped.2 = 2 :=
  ⟨rfl, rfl, rfl⟩

/-- Claim C11, amended. Every call of `Close` on a filter or on a definer calls the
`Close` of the wrapped source once and returns what it returns: after two calls the
wrapped source has been closed twice, the second call having returned the result of
the second `Close` of the source, and the scan state and the header reader are as they
were. -/
theorem close_twice_closes_wrapped_twice {σ : Type} (W : ReadCloser σ) (w : σ) (k : Nat)
    (state : ScanState) (hdr : BytesReader) :
    typeFilteringReadCloser.Close (countingCloses W)
        (typeFilteringReadCloser.Close (countingCloses W) ⟨(w, k), state⟩).2
      = ((W.Close (W.Close w).2).1, ⟨((W.Close (W.Close w).2).2, k + 2), state⟩) ∧
    typeDefiningReadCloser.Close (countingCloses W)
        (typeDefiningReadCloser.Close (countingCloses W) ⟨(w, k), hdr⟩).2
      = ((W.Close (W.Close w).2).1, ⟨((W.Close (W.Close w).2).2, k + 2), hdr⟩) :=
  ⟨rfl, rfl⟩

/-- Claim C12. One `Close` on a definer over a filter over a source calls the `Close` of
the source once (its counter goes up by one, its state is the one that call leaves)
and returns the error, or nil, that call returned; the scan state and the header
reader are unchanged, whatever they are. -/
theorem close_propagates_once {σ : Type} (W : ReadCloser σ) (w : σ) (k : Nat)
    (state : ScanState) (hdr : BytesReader) :
    typeDefiningReadCloser.Close (filteringReadCloser (countingCloses W))
        ⟨⟨(w, k), state⟩, hdr⟩
      = ((W.Close w).1, ⟨⟨((W.Close w).2, k + 1), state⟩, hdr⟩) :=
  rfl

/-! ## The header -/

theorem isTypeLine_sound (line : List Nat) (h : isTypeLine line = true) : TypeLine line := by
  simp only [isTypeLine, Bool.and_eq_true, beq_iff_eq, Bool.not_eq_true', List.all_eq_true]
    at h
  obtain ⟨⟨⟨h1, h2⟩, h3⟩, h4⟩ := h
  have e1 : line = line.take 7 ++ line.drop 7 := (List.take_append_drop 7 line).symm
  have e2 : line.drop 7 = (line.drop 7).takeWhile (fun b => b != byteSpace)
      ++ (line.drop 7).dropWhile (fun b => b != byteSpace) :=
    (List.takeWhile_append_dropWhile _ _).symm
  cases hd : (line.drop 7).dropWhile (fun b => b != byteSpace) with
  | nil => rw [hd] at h4; simp at h4
  | cons x ty =>
    rw [hd] at h4 e2
    have hx : x = byteSpace := by
      have hmem := List.head_dropWhile_not (fun b => b != byteSpace) (line.drop 7)
        (by rw [hd]; simp)
      simp only [hd, List.head_cons] at hmem
      simpa using hmem
    subst hx
    refine ⟨(line.drop 7).takeWhile (fun b => b != byteSpace), ty, ?_, ?_, ?_, ?_⟩
    · rw [← h1, List.append_assoc, ← e2]; exact e1
    · intro hnil; rw [hnil] at h2; simp at h2
    · intro b hb; have := h3 b hb; simpa using this
    · simpa using h4

set_option maxRecDepth 100000 in
theorem typeDefinitions_lines_check :
    (splitLines (bytes TypeDefinitions)).all isTypeLine = true := by decide

set_option maxRecDepth 100000 in
theorem typeDefinitions_getLast : (bytes TypeDefinitions).getLast? = some byteNewline := by
  decide

/-- Claim C13. The bytes of `TypeDefinitions` are not empty, the last of them is the
newline, and every newline-terminated line is `# TYPE `, a non-empty name without white
space, one space, and one of `counter`, `gauge` and `summary`. -/
theorem typeDefinitions_format :
    bytes TypeDefinitions ≠ [] ∧
    (bytes TypeDefinitions).getLast? = some byteNewline ∧
    ∀ line ∈ splitLines (bytes TypeDefinitions), TypeLine line := by
  refine ⟨?_, typeDefinitions_getLast, ?_⟩
  · intro h
    have hl := typeDefinitions_length
    rw [h] at hl
    simp at hl
  · intro line hline
    exact isTypeLine_sound line (List.all_eq_true.mp typeDefinitions_lines_check line hline)

/-! ## The loop and the automaton -/

theorem validState_cases (state : ScanState) (h : ValidState state) :
    state = stateStart ∨ state = stateComment ∨ state = stateWhitespace ∨
      state = stateTSeen ∨ state = stateYSeen ∨ state = statePSeen ∨ state = stateESeen := by
  simpa [ValidState] using h

/-- Claim C14. For `0 <= n <= len(p)` and a starting state among the seven,
`filter(p, n, tf)` returns the buffer and the state that the one-byte step function of
the state machine gives when folded over `p[0..n)`; the bytes from `n` on stay. In the
case `stateStart`, a scan that finds no `#` returns with buffer and state as they are,
as stepping over those bytes does, and a scan that finds the first `#` goes on behind
it in `stateComment`, as stepping over the bytes up to and including the `#` does. -/
theorem filter_refines_automaton :
    (∀ (p : List Nat) (n : Int) (state : ScanState), 0 ≤ n → n ≤ (p.length : Int) →
      ValidState state →
      filter p n state
        = .ok ((runBytes state (p.take n.toNat)).1 ++ p.drop n.toNat,
            (runBytes state (p.take n.toNat)).2)) ∧
    (∀ a c z : List Nat, byteHash ∉ c →
      filterSwitch (a ++ (c ++ z)) ((a.length : Int) + c.length) a.length stateStart
        = .ok (.ret (a ++ (c ++ z)) stateStart) ∧
      runBytes stateStart c = (c, stateStart)) ∧
    (∀ a c d z : List Nat, byteHash ∉ c →
      filterSwitch (a ++ (c ++ byteHash :: (d ++ z)))
          ((a.length : Int) + (c.length + 1 + d.length : Nat)) a.length stateStart
        = .ok (.next (a ++ (c ++ byteHash :: (d ++ z))) ((a.length : Int) + c.length)
            stateComment) ∧
      runBytes stateStart (c ++ [byteHash]) = (c ++ [byteHash], stateComment)) := by
  refine ⟨fun p n state _ hn _ => filter_take_drop p n state hn, ?_, ?_⟩
  · intro a c z h
    exact ⟨filterSwitch_start_absent a c z h, runBytes_start_absent c h⟩
  · intro a c d z h
    refine ⟨filterSwitch_start_found a c d z h, ?_⟩
    rw [runBytes_start_found c [] h]
    simp [runBytes]

/-- Witness of C14: the first eight bytes of `"# TYPE a b"` from `stateStart`. -/
theorem filter_refines_automaton_witness :
    (0 : Int) ≤ 8 ∧ (8 : Int) ≤ ((bytes "# TYPE a b").length : Int) ∧
    ValidState stateStart ∧
    filter (bytes "# TYPE a b") 8 stateStart
      = .ok ((runBytes stateStart ((bytes "# TYPE a b").take (8 : Int).toNat)).1
            ++ (bytes "# TYPE a b").drop (8 : Int).toNat,
          (runBytes stateStart ((bytes "# TYPE a b").take (8 : Int).toNat)).2) :=
  ⟨by decide, by decide, by decide,
    filter_refines_automaton.1 (bytes "# TYPE a b") 8 stateStart (by decide) (by decide)
      (by decide)⟩

/-- Claim C15. For `0 <= n <= len(p)`, `filter(p, n, tf)` returns a buffer of the same
length whose bytes from index `n` on are those of `p`; and on a second buffer with the
same first `n` bytes it returns the same first `n` bytes and the same state. -/
theorem filter_works_on_first_n (p p2 : List Nat) (n : Int) (state : ScanState)
    (h0 : 0 ≤ n) (hn : n ≤ (p.length : Int)) (hn2 : n ≤ (p2.length : Int))
    (he : p.take n.toNat = p2.take n.toNat) :
    ∃ q q2 s, filter p n state = .ok (q, s) ∧ filter p2 n state = .ok (q2, s) ∧
      q.length = p.length ∧ q.drop n.toNat = p.drop n.toNat ∧
      q2.drop n.toNat = p2.drop n.toNat ∧ q.take n.toNat = q2.take n.toNat := by
  have hle : n.toNat ≤ p.length := by omega
  have hle2 : n.toNat ≤ p2.length := by omega
  have hl : (runBytes state (p.take n.toNat)).1.length = n.toNat := by
    rw [runBytes_length, List.length_take, min_eq_left hle]
  have hl2 : (runBytes state (p2.take n.toNat)).1.length = n.toNat := by
    rw [runBytes_length, List.length_take, min_eq_left hle2]
  refine ⟨(runBytes state (p.take n.toNat)).1 ++ p.drop n.toNat,
    (runBytes state (p2.take n.toNat)).1 ++ p2.drop n.toNat,
    (runBytes state (p.take n.toNat)).2, filter_take_drop p n state hn, ?_, ?_, ?_, ?_, ?_⟩
  · rw [filter_take_drop p2 n state hn2, he]
  · rw [List.length_append, hl, List.length_drop]; omega
  · rw [List.drop_append_of_le_length (le_of_eq hl.symm), List.drop_of_length_le (le_of_eq hl)]
    simp
  · rw [List.drop_append_of_le_length (le_of_eq hl2.symm),
      List.drop_of_length_le (le_of_eq hl2)]
    simp
  · rw [List.take_append_of_le_length (le_of_eq hl.symm),
      List.take_append_of_le_length (le_of_eq hl2.symm), he]

/-- Witness of C15: two buffers that agree on their first three bytes, in
`stateESeen`. -/
theorem filter_works_on_first_n_witness :
    ∃ q q2 s, filter [32, 35, 32, 84, 7] 3 stateESeen = .ok (q, s) ∧
      filter [32, 35, 32, 1] 3 stateESeen = .ok (q2, s) ∧
      q.length = [32, 35, 32, 84, 7].length ∧
      q.drop (3 : Int).toNat = [32, 35, 32, 84, 7].drop (3 : Int).toNat ∧
      q2.drop (3 : Int).toNat = [32, 35, 32, 1].drop (3 : Int).toNat ∧
      q.take (3 : Int).toNat = q2.take (3 : Int).toNat :=
  filter_works_on_first_n [32, 35, 32, 84, 7] [32, 35, 32, 1] 3 stateESeen (by decide)
    (by decide) (by decide) (by decide)

/-! ## Bytes and states outside the pattern -/

theorem blank_cases (b : Nat) (h : isAsciiSpaceOrTab b = true) : b = byteSpace ∨ b = byteTab := by
  simpa [isAsciiSpaceOrTab] using h

theorem stepByte_high (state : ScanState) (b : Nat) (h : 128 ≤ b) :
    stepByte state b = (b, stateStart) := by
  have h1 : isAsciiSpaceOrTab b = false := by
    cases hb : isAsciiSpaceOrTab b with
    | false => rfl
    | true =>
      rcases blank_cases b hb with e | e <;> rw [e] at h <;> exact absurd h (by decide)
  have h2 : b ≠ byteHash := by intro e; rw [e] at h; exact absurd h (by decide)
  have h3 : b ≠ byteT := by intro e; rw [e] at h; exact absurd h (by decide)
  have h4 : b ≠ byteY := by intro e; rw [e] at h; exact absurd h (by decide)
  have h5 : b ≠ byteP := by intro e; rw [e] at h; exact absurd h (by decide)
  have h6 : b ≠ byteE := by intro e; rw [e] at h; exact absurd h (by decide)
  simp only [stepByte, h1, h2, h3, h4, h5, h6, if_false, Bool.false_eq_true]
  split_ifs <;> rfl

theorem stepByte_invalid (state : ScanState) (b : Nat) (h : ¬ ValidState state) :
    stepByte state b = (b, stateStart) := by
  have hv : ∀ s, s ∈ [stateStart, stateComment, stateWhitespace, stateTSeen, stateYSeen,
      statePSeen, stateESeen] → state ≠ s := by
    intro s hs e
    exact h (by rw [e]; exact hs)
  simp only [stepByte, if_neg (hv stateStart (by simp)), if_neg (hv stateComment (by simp)),
    if_neg (hv stateWhitespace (by simp)), if_neg (hv stateTSeen (by simp)),
    if_neg (hv stateYSeen (by simp)), if_neg (hv statePSeen (by simp)),
    if_neg (hv stateESeen (by simp))]

theorem runBytes_take (bs : List Nat) :
    ∀ (state : ScanState) (k : Nat),
      (runBytes state (bs.take k)).1 = (runBytes state bs).1.take k := by
  induction bs with
  | nil => intro state k; simp [runBytes]
  | cons x bs ih =>
    intro state k
    cases k with
    | zero => simp [runBytes]
    | succ k => simp [runBytes, ih]

/-- Claim C17. Whatever the state the filter is in and whatever comes before and after,
a byte of value 128 or more is left as it is, and the filter is in `stateStart` right
after it. For a stream filtered from `stateStart`, the bytes of a rewritten match (the
`#`, the blanks, `TYPE` and the byte that is replaced) are all below 128. -/
theorem high_bit_bytes_untouched :
    (∀ (state : ScanState) (a : List Nat) (b : Nat) (t : List Nat), 128 ≤ b →
      ∃ out final mid,
        filter (a ++ b :: t) (a ++ b :: t).length state = .ok (out, final) ∧
        out[a.length]? = some b ∧
        filter (a ++ [b]) (a ++ [b]).length state = .ok (mid, stateStart)) ∧
    (∀ (s : List Nat) (m : Nat), ∃ out final,
      filter s s.length stateStart = .ok (out, final) ∧
      (out[m]? ≠ s[m]? →
        ∃ u k, s.take (m + 1) = u ++ k ∧ k.length ≥ 7 ∧ ∀ x ∈ k, x < 128)) := by
  constructor
  · intro state a b t hb
    refine ⟨(runBytes state (a ++ b :: t)).1, (runBytes state (a ++ b :: t)).2,
      (runBytes state (a ++ [b])).1, filter_whole _ _, ?_, ?_⟩
    · rw [runBytes_append]
      simp only [runBytes, stepByte_high _ b hb]
      rw [List.getElem?_append_right (le_of_eq (runBytes_length a state))]
      simp [runBytes_length]
    · rw [filter_whole, runBytes_append]
      simp [runBytes, stepByte_high _ b hb]
  · intro s m
    refine ⟨_, _, filter_whole _ _, ?_⟩
    intro hne
    obtain ⟨u, w, b, e, hw, hb, _, _⟩ :=
      runBytes_changes s [] stateStart (history_start []) m hne
    refine ⟨u, byteHash :: (w ++ typeToken ++ [b]), by simpa using e, ?_, ?_⟩
    · have hwl : 0 < w.length := List.length_pos.mpr hw.1
      simp only [List.length_cons, List.length_append, typeToken, List.length_nil]
      omega
    · intro x hx
      simp only [List.mem_cons, List.mem_append, List.mem_singleton, List.mem_nil_iff,
        or_false, typeToken] at hx
      rcases hx with hx | (hx | hx | hx | hx | hx) | hx
      · rw [hx]; decide
      · rcases blank_cases x (hw.2 x hx) with e2 | e2 <;> rw [e2] <;> decide
      · rw [hx]; decide
      · rw [hx]; decide
      · rw [hx]; decide
      · rw [hx]; decide
      · rcases blank_cases b hb with e2 | e2 <;> rw [hx, e2] <;> decide

/-- Witness of C17: the byte 226 after `"# TYPE"`, met in `stateESeen`. -/
theorem high_bit_bytes_untouched_witness :
    (128 : Nat) ≤ 226 ∧
    ∃ out final mid,
      filter (bytes "# TYPE" ++ 226 :: [132, 131]) (bytes "# TYPE" ++ 226 :: [132, 131]).length
          stateStart = .ok (out, final) ∧
      out[(bytes "# TYPE").length]? = some 226 ∧
      filter (bytes "# TYPE" ++ [226]) (bytes "# TYPE" ++ [226]).length stateStart
        = .ok (mid, stateStart) :=
  ⟨by decide, high_bit_bytes_untouched.1 stateStart (bytes "# TYPE") 226 [132, 131]
    (by decide)⟩

/-- Claim C18. In a state that is none of the seven named ones, the zero value
included, `filter` does not fail on a byte: the byte stays, and the bytes after it are
filtered as from `stateStart`, with the state that run ends in. -/
theorem invalid_state_recovers :
    (∀ (state : ScanState) (b : Nat) (t : List Nat), ¬ ValidState state →
      ∃ ot final, filter t t.length stateStart = .ok (ot, final) ∧
        filter (b :: t) (b :: t).length state = .ok (b :: ot, final) ∧
        filter [b] 1 state = .ok ([b], stateStart)) ∧
    ¬ ValidState 0 := by
  refine ⟨?_, by decide⟩
  intro state b t h
  refine ⟨_, _, filter_whole t stateStart, ?_, ?_⟩
  · rw [filter_whole]
    simp [runBytes, stepByte_invalid state b h]
  · have key := filter_whole [b] state
    simpa [runBytes, stepByte_invalid state b h] using key

/-- Witness of C18: the zero value of `ScanState` and the bytes `"# TYPE x"`. -/
theorem invalid_state_recovers_witness :
    ¬ ValidState 0 ∧
    ∃ ot final, filter (bytes " TYPE x") (bytes " TYPE x").length stateStart = .ok (ot, final) ∧
      filter (byteHash :: bytes " TYPE x") (byteHash :: bytes " TYPE x").length 0
        = .ok (byteHash :: ot, final) ∧
      filter [byteHash] 1 0 = .ok ([byteHash], stateStart) :=
  ⟨by decide, invalid_state_recovers.1 0 byteHash (bytes " TYPE x") (by decide)⟩

/-- Claim C19. Filtering from `stateStart` the output of a stream filtered from
`stateStart` returns that output again, with the same last state; and after every
number `k` of bytes, the filter is in the same state on the output as it was on the
stream. -/
theorem filter_idempotent (s : List Nat) :
    ∃ out final,
      filter s s.length stateStart = .ok (out, final) ∧
      filter out out.length stateStart = .ok (out, final) ∧
      ∀ k : Nat, ∃ o1 o2 st,
        filter (s.take k) (s.take k).length stateStart = .ok (o1, st) ∧
        filter (out.take k) (out.take k).length stateStart = .ok (o2, st) := by
  refine ⟨_, _, filter_whole s stateStart, ?_, ?_⟩
  · rw [filter_whole, runBytes_idem]
  · intro k
    refine ⟨(runBytes stateStart (s.take k)).1, (runBytes stateStart (s.take k)).1,
      (runBytes stateStart (s.take k)).2, filter_whole _ _, ?_⟩
    rw [filter_whole, ← runBytes_take, runBytes_idem]

/-! ## The passes of the loop -/

theorem filterPasses_fresh :
    ∀ (fuel : Nat) (a c z : List Nat) (state : ScanState),
      FreshFrom ((a.length : Int) + c.length) a.length
        (filterPasses ((a.length : Int) + c.length) fuel (a ++ (c ++ z)) a.length state) := by
  intro fuel
  induction fuel with
  | zero => intro a c z state; simp [filterPasses, FreshFrom]
  | succ fuel ih =>
    intro a c z state
    cases c with
    | nil => simp [filterPasses, FreshFrom]
    | cons x c =>
      have hlt : (a.length : Int) < (a.length : Int) + ((x :: c).length : Nat) := by
        simp only [List.length_cons]; push_cast; omega
      rw [filterPasses, if_pos hlt]
      by_cases hs : state = stateStart
      · subst hs
        by_cases hm : byteHash ∈ x :: c
        · obtain ⟨c1, d, e, hn⟩ := exists_first_occurrence byteHash (x :: c) hm
          have hlen : (x :: c).length = c1.length + 1 + d.length := by
            rw [e]; simp only [List.length_append, List.length_cons]; omega
          have key := ih (a ++ (c1 ++ [byteHash])) d z stateComment
          have e1 : (((a ++ (c1 ++ [byteHash])).length : Nat) : Int) + (d.length : Nat)
              = (a.length : Int) + ((c1.length + 1 + d.length : Nat) : Int) := by
            simp only [List.length_append, List.length_singleton]; push_cast; omega
          have e2 : (((a ++ (c1 ++ [byteHash])).length : Nat) : Int)
              = (a.length : Int) + c1.length + 1 := by
            simp only [List.length_append, List.length_singleton]; push_cast; omega
          have e3 : a ++ (c1 ++ [byteHash]) ++ (d ++ z) = a ++ (c1 ++ byteHash :: (d ++ z)) := by
            simp
          rw [e1, e2, e3] at key
          rw [hlen, e, List.append_assoc, List.cons_append,
            filterSwitch_start_found a c1 d z hn]
          simp only [FreshFrom]
          refine ⟨trivial, by omega, by push_cast; omega, key⟩
        · rw [filterSwitch_start_absent a (x :: c) z hm]
          simp only [FreshFrom]
          exact ⟨trivial, le_refl _, hlt, trivial⟩
      · have key := ih (a ++ [(stepByte state x).1]) c z (stepByte state x).2
        have e1 : (((a ++ [(stepByte state x).1]).length : Nat) : Int) + (c.length : Nat)
            = (a.length : Int) + ((x :: c).length : Nat) := by
          simp only [List.length_append, List.length_singleton, List.length_cons,
            List.length_nil]
          push_cast; ring
        have e2 : (((a ++ [(stepByte state x).1]).length : Nat) : Int)
            = (a.length : Int) + 1 := by
          simp only [List.length_append, List.length_singleton]; push_cast; rfl
        rw [e1, e2, List.append_assoc, List.singleton_append] at key
        rw [List.cons_append, filterSwitch_other a x (c ++ z) _ state hs]
        simp only [FreshFrom]
        exact ⟨trivial, le_refl _, hlt, key⟩

theorem freshFrom_bounds (n : Int) (l : List (Int × ScanState × Int)) :
    ∀ start : Int, FreshFrom n start l → ∀ e ∈ l, start ≤ e.1 ∧ e.1 ≤ e.2.2 ∧ e.2.2 < n := by
  induction l with
  | nil => intro start _ e he; simp at he
  | cons x l ih =>
    intro start h e he
    obtain ⟨h1, h2, h3, h4⟩ := h
    rcases List.mem_cons.mp he with he | he
    · subst he; exact ⟨le_of_eq h1.symm, h2, h3⟩
    · obtain ⟨k1, k2, k3⟩ := ih (x.2.2 + 1) h4 e he
      exact ⟨by omega, k2, k3⟩

/-- Claim C16. For `0 <= n <= len(p)` and any starting state, `filter(p, n, tf)`
returns, so no index in `filter` or `indexByteWithOffset` is out of range. The first
pass enters the `switch` at index 0 and every later pass right after the index at which
the pass before it ended, so at an index that no earlier pass has looked at; and on
entry to the `switch` the index `i` satisfies `0 <= i < n` and lies inside `p`. -/
theorem filter_indices_in_range (p : List Nat) (n : Int) (state : ScanState)
    (h0 : 0 ≤ n) (hn : n ≤ (p.length : Int)) :
    (∃ q s, filter p n state = .ok (q, s)) ∧
    FreshFrom n 0 (filterPasses n n.toNat p 0 state) ∧
    ∀ e ∈ filterPasses n n.toNat p 0 state,
      0 ≤ e.1 ∧ e.1 < n ∧ e.1 < (p.length : Int) ∧ e.1 ≤ e.2.2 ∧ e.2.2 < n := by
  have hle : n.toNat ≤ p.length := by omega
  have hlen : ((p.take n.toNat).length : Int) = n := by
    rw [List.length_take, min_eq_left hle]; omega
  have key := filterPasses_fresh n.toNat [] (p.take n.toNat) (p.drop n.toNat) state
  simp only [List.length_nil, Nat.cast_zero, zero_add, List.nil_append, hlen,
    List.take_append_drop] at key
  refine ⟨⟨_, _, filter_take_drop p n state hn⟩, key, ?_⟩
  intro e he
  obtain ⟨k1, k2, k3⟩ := freshFrom_bounds n _ 0 key e he
  exact ⟨k1, by omega, by omega, k2, k3⟩

/-- Witness of C16: the first nine bytes of `"ab# TYPE x"` in `stateStart`. -/
theorem filter_indices_in_range_witness :
    (∃ q s, filter (bytes "ab# TYPE x") 9 stateStart = .ok (q, s)) ∧
    FreshFrom 9 0 (filterPasses 9 (9 : Int).toNat (bytes "ab# TYPE x") 0 stateStart) ∧
    ∀ e ∈ filterPasses 9 (9 : Int).toNat (bytes "ab# TYPE x") 0 stateStart,
      0 ≤ e.1 ∧ e.1 < 9 ∧ e.1 < ((bytes "ab# TYPE x").length : Int) ∧ e.1 ≤ e.2.2 ∧
        e.2.2 < 9 :=
  filter_indices_in_range (bytes "ab# TYPE x") 9 stateStart (by decide) (by decide)

/-! ## The scan state stays among the seven -/

theorem validState_stateStart : ValidState stateStart := by decide

theorem filterSwitch_state (p : List Nat) (n i : Int) (state : ScanState) (r : Pass)
    (h : filterSwitch p n i state = .ok r) :
    match r with
    | .ret _ s => s = state
    | .next _ _ s => ValidState s := by
  have v1 : ValidState stateStart := by decide
  have v2 : ValidState stateComment := by decide
  have v3 : ValidState stateWhitespace := by decide
  have v4 : ValidState stateTSeen := by decide
  have v5 : ValidState stateYSeen := by decide
  have v6 : ValidState statePSeen := by decide
  have v7 : ValidState stateESeen := by decide
  unfold filterSwitch at h
  split_ifs at h <;> (repeat' split at h) <;>
    first
    | (injection h with h; subst h; first | rfl | assumption)
    | exact Res.noConfusion h

theorem filterLoop_valid (n : Int) :
    ∀ (fuel : Nat) (p : List Nat) (i : Int) (state : ScanState) (q : List Nat)
      (s : ScanState), ValidState state → filterLoop n fuel p i state = .ok (q, s) →
      ValidState s := by
  intro fuel
  induction fuel with
  | zero =>
    intro p i state q s hv h
    simp only [filterLoop] at h
    split_ifs at h
    injection h with h
    injection h with _ h2
    rw [← h2]; exact hv
  | succ fuel ih =>
    intro p i state q s hv h
    rw [filterLoop] at h
    split_ifs at h
    · cases hsw : filterSwitch p n i state with
      | ok r =>
        have hst := filterSwitch_state p n i state r hsw
        rw [hsw] at h
        cases r with
        | ret q2 s2 =>
          simp only at h hst
          injection h with h
          injection h with _ h2
          rw [← h2, hst]; exact hv
        | next q2 j s2 =>
          simp only at h hst
          exact ih q2 (j + 1) s2 q s hst h
      | indexOutOfRange => rw [hsw] at h; exact Res.noConfusion h
      | outOfFuel => rw [hsw] at h; exact Res.noConfusion h
    · injection h with h
      injection h with _ h2
      rw [← h2]; exact hv

theorem filterPasses_valid (n : Int) :
    ∀ (fuel : Nat) (p : List Nat) (i : Int) (state : ScanState), ValidState state →
      ∀ e ∈ filterPasses n fuel p i state, ValidState e.2.1 := by
  intro fuel
  induction fuel with
  | zero => intro p i state _ e he; simp [filterPasses] at he
  | succ fuel ih =>
    intro p i state hv e he
    rw [filterPasses] at he
    split_ifs at he
    · cases hsw : filterSwitch p n i state with
      | ok r =>
        have hst := filterSwitch_state p n i state r hsw
        rw [hsw] at he
        cases r with
        | ret q2 s2 =>
          simp only [List.mem_singleton] at he
          rw [he]; exact hv
        | next q2 j s2 =>
          simp only [List.mem_cons] at he hst
          rcases he with he | he
          · rw [he]; exact hv
          · exact ih q2 (j + 1) s2 hst e he
      | indexOutOfRange =>
        rw [hsw] at he
        simp only [List.mem_singleton] at he
        rw [he]; exact hv
      | outOfFuel =>
        rw [hsw] at he
        simp only [List.mem_singleton] at he
        rw [he]; exact hv
    · simp at he

theorem filterCalls_valid (calls : List (List Nat × Int)) :
    ∀ (state final : ScanState), ValidState state → filterCalls state calls = .ok final →
      ValidState final := by
  induction calls with
  | nil =>
    intro state final hv h
    simp only [filterCalls] at h
    injection h with h
    rw [← h]; exact hv
  | cons x calls ih =>
    intro state final hv h
    rw [filterCalls] at h
    cases hf : filter x.1 x.2 state with
    | ok r =>
      rw [hf] at h
      simp only at h
      have hv2 : ValidState r.2 :=
        filterLoop_valid x.2 x.2.toNat x.1 0 state r.1 r.2 hv (by simpa [filter] using hf)
      exact ih r.2 final hv2 h
    | indexOutOfRange => rw [hf] at h; exact Res.noConfusion h
    | outOfFuel => rw [hf] at h; exact Res.noConfusion h

theorem filterCalls_returns (calls : List (List Nat × Int)) :
    ∀ state : ScanState, (∀ x ∈ calls, x.2 ≤ (x.1.length : Int)) →
      ∃ final, filterCalls state calls = .ok final := by
  induction calls with
  | nil => intro state _; exact ⟨state, rfl⟩
  | cons x calls ih =>
    intro state h
    have hx := h x (by simp)
    obtain ⟨final, hfin⟩ := ih (runBytes state (x.1.take x.2.toNat)).2
      (fun y hy => h y (by simp [hy]))
    refine ⟨final, ?_⟩
    rw [filterCalls, filter_take_drop x.1 x.2 state hx]
    exact hfin

/-- Claim C20. The seven state constants are pairwise distinct, and a filter made by
`NewTypeFilteringReadCloser` is in `stateStart`. From there, after any sequence of
`filter` calls that return, on any buffers and counts, the state is one of the seven
(and the calls do return when every count is at most the length of its buffer). In a
call that starts in one of the seven, every pass enters the `switch` in one of the
seven, so never by the `default` case. -/
theorem scan_state_invariant :
    [stateStart, stateComment, stateWhitespace, stateTSeen, stateYSeen, statePSeen,
      stateESeen].Nodup ∧
    (∀ (σ : Type) (rc : σ), (NewTypeFilteringReadCloser rc).state = stateStart) ∧
    (∀ (calls : List (List Nat × Int)) (final : ScanState),
      filterCalls stateStart calls = .ok final → ValidState final) ∧
    (∀ calls : List (List Nat × Int), (∀ x ∈ calls, x.2 ≤ (x.1.length : Int)) →
      ∃ final, filterCalls stateStart calls = .ok final ∧ ValidState final) ∧
    (∀ (p : List Nat) (n : Int) (state : ScanState), ValidState state →
      ∀ e ∈ filterPasses n n.toNat p 0 state, ValidState e.2.1) := by
  refine ⟨by decide, fun _ _ => rfl, ?_, ?_, ?_⟩
  · intro calls final h
    exact filterCalls_valid calls stateStart final validState_stateStart h
  · intro calls h
    obtain ⟨final, hfin⟩ := filterCalls_returns calls stateStart h
    exact ⟨final, hfin, filterCalls_valid calls stateStart final validState_stateStart hfin⟩
  · intro p n state hv
    exact filterPasses_valid n n.toNat p 0 state hv

/-- Witness of C20: two calls, the first on the eight bytes of `"ab# TYPE"`, the second
on the first byte of a buffer of two. -/
theorem scan_state_invariant_witness :
    (∀ x ∈ [(bytes "ab# TYPE", (8 : Int)), ([32, 35], (1 : Int))],
      x.2 ≤ (x.1.length : Int)) ∧
    ∃ final, filterCalls stateStart [(bytes "ab# TYPE", (8 : Int)), ([32, 35], (1 : Int))]
      = .ok final ∧ ValidState final :=
  ⟨by decide, scan_state_invariant.2.2.2.1
    [(bytes "ab# TYPE", (8 : Int)), ([32, 35], (1 : Int))] (by decide)⟩

/-! ## The names of the header -/

theorem takeWhile_name (ty : List Nat) (name : List Nat) :
    (∀ b ∈ name, b ≠ byteSpace) →
      (name ++ byteSpace :: ty).takeWhile (fun b => b != byteSpace) = name := by
  induction name with
  | nil => intro _; simp [List.takeWhile]
  | cons x name ih =>
    intro h
    have hx : x ≠ byteSpace := h x (by simp)
    have hrest : ∀ b ∈ name, b ≠ byteSpace := fun b hb => h b (by simp [hb])
    have hb : (x != byteSpace) = true := by simpa using hx
    rw [List.cons_append, List.takeWhile_cons, hb, ih hrest]
    rfl

theorem metricName_of_line (name ty : List Nat) (h : ∀ b ∈ name, isSpaceByte b = false) :
    metricName (bytes "# TYPE " ++ name ++ byteSpace :: ty) = name := by
  have hne : ∀ b ∈ name, b ≠ byteSpace := by
    intro b hb e
    have hs := h b hb
    rw [e] at hs
    exact absurd hs (by decide)
  have hl : (bytes "# TYPE ").length = 7 := by decide
  have hd : (bytes "# TYPE " ++ name ++ byteSpace :: ty).drop 7 = name ++ byteSpace :: ty := by
    rw [List.append_assoc, ← hl, List.drop_left]
  rw [metricName, hd, takeWhile_name ty name hne]

set_option maxRecDepth 100000 in
theorem typeDefinitions_line_count : (splitLines (bytes TypeDefinitions)).length = 37 := by
  decide

set_option maxRecDepth 100000 in
theorem typeDefinitions_names_nodup :
    ((splitLines (bytes TypeDefinitions)).map metricName).Nodup := by
  decide

/-- Claim C21. `TypeDefinitions` has exactly 37 newline-terminated lines, and the metric
names on them are pairwise distinct; the metric name of a line
`# TYPE <name> <type>` is its `<name>`. -/
theorem typeDefinitions_names_distinct :
    (splitLines (bytes TypeDefinitions)).length = 37 ∧
    ((splitLines (bytes TypeDefinitions)).map metricName).Nodup ∧
    (∀ name ty : List Nat, (∀ b ∈ name, isSpaceByte b = false) →
      metricName (bytes "# TYPE " ++ name ++ byteSpace :: ty) = name) :=
  ⟨typeDefinitions_line_count, typeDefinitions_names_nodup, metricName_of_line⟩

end Verrazzano
